import Mathlib

/-!
# Verification of the spam-classifier text pipeline

A shallow embedding of the text-normalization, vocabulary-construction,
feature-extraction and prediction code of `src/model.ipynb`, together with
proofs and refutations of the specification's claims about it.

Text is modelled as `List Char` (Python strings), mails as lists of stemmed
tokens (`List (List Char)`), and the external Porter stemmer as an opaque
function parameter.  Regular-expression substitutions are modelled by
recursive functions that implement the same leftmost, greedy replacement
semantics as Python's `re.sub` for the concrete patterns appearing in the
source.
-/

namespace SpamPipeline

/-! ## Character classes -/

/-- The whitespace characters matched by Python's `\s` in `re` (Unicode mode):
the ASCII whitespace characters together with the Unicode space characters
recognised by `str.isspace`. -/
def isSpaceP (c : Char) : Bool :=
  c = ' ' || c = '\t' || c = '\n' || c = '\r' || c = '\x0b' || c = '\x0c' ||
  c = '\x1c' || c = '\x1d' || c = '\x1e' || c = '\x1f' || c = '\x85' || c = '\xa0' ||
  c = '\u1680' || ('\u2000' ≤ c && c ≤ '\u200a') || c = '\u2028' || c = '\u2029' ||
  c = '\u202f' || c = '\u205f' || c = '\u3000'

/-- ASCII decimal digits, the class `[0-9]`. -/
def isDigitP (c : Char) : Bool := '0' ≤ c && c ≤ '9'

/-- Uppercase ASCII letters, `[A-Z]`. -/
def isUpperA (c : Char) : Bool := 'A' ≤ c && c ≤ 'Z'

/-- The class `[a-zA-Z0-9]` used by the per-token cleanup. -/
def isAlnumP (c : Char) : Bool :=
  ('a' ≤ c && c ≤ 'z') || isUpperA c || isDigitP c

/-- Lowercase ASCII letters and digits: the character set the spec asserts
for the final tokens. -/
def isLowerAlnum (c : Char) : Bool := ('a' ≤ c && c ≤ 'z') || isDigitP c

/-! ## Header strip

`hdrstart = mail.find(chr(10) + chr(10)); mail = mail[hdrstart:]`.

`str.find` returns the lowest index at which the substring occurs, and `-1`
when it does not occur; in the latter case the slice `mail[-1:]` keeps only
the final character (the empty string for empty input), which is
`drop (length - 1)`. -/

/-- `mail.find("\n\n")`: the lowest index where two consecutive newlines
start, or `none`. -/
def findNN : List Char → Option Nat
  | [] => none
  | c :: cs =>
    if ['\n', '\n'] <+: (c :: cs) then some 0
    else (findNN cs).map (· + 1)

/-- `mail = mail[hdrstart:]` with `hdrstart = mail.find("\n\n")`. -/
def headerStrip (mail : List Char) : List Char :=
  match findNN mail with
  | some i => mail.drop i
  | none => mail.drop (mail.length - 1)

/-- Two consecutive newlines occur at index `i` of `mail`. -/
def nnAt (mail : List Char) (i : Nat) : Prop :=
  ['\n', '\n'] <+: mail.drop i

instance (mail : List Char) (i : Nat) : Decidable (nnAt mail i) := by
  unfold nnAt; infer_instance

/-! ## Tokenization split

`re.split('[ @$/#.-:&*+=\[\]?!(){},''">_<;%\n\r]', mail)`.

In the Python source the two adjacent single quotes inside the pattern close
one string literal and open a second one (implicit concatenation), so the
character class contains no apostrophe; and `.-:` inside the class denotes
the codepoint range 0x2E..0x3A (`.`, `/`, the digits `0`-`9`, `:`), not three
literal characters. -/

/-- Membership in the character class of the split regex, literal by literal
with `.-:` as a range. -/
def isDelimP (c : Char) : Bool :=
  c = ' ' || c = '@' || c = '$' || c = '/' || c = '#' ||
  ('.' ≤ c && c ≤ ':') ||
  c = '&' || c = '*' || c = '+' || c = '=' || c = '[' || c = ']' ||
  c = '?' || c = '!' || c = '(' || c = ')' || c = '\x7b' || c = '\x7d' ||
  c = ',' || c = '"' || c = '>' || c = '_' || c = '<' || c = ';' ||
  c = '%' || c = '\n' || c = '\r'

/-- `re.split` with a single-character class: split at every delimiter
character, keeping empty pieces. -/
def splitMail (mail : List Char) : List (List Char) :=
  List.splitOnP isDelimP mail

/-- The delimiter set the specification claims (space, `@$/#.-:&*+=[]?!(){},`,
double quote, single quote, `<>_;%`, newline, carriage return), stated from
the spec's words for comparison against the code. -/
def claimedDelims : List Char :=
  [' ', '@', '$', '/', '#', '.', '-', ':', '&', '*', '+', '=', '[', ']',
   '?', '!', '(', ')', '\x7b', '\x7d', ',', '"', '\'', '<', '>', '_', ';',
   '%', '\n', '\r']

/-- The delimiter set the regex character class actually denotes, with the
`.-:` range written out. -/
def actualDelims : List Char :=
  [' ', '@', '$', '/', '#', '&', '*', '+', '=', '[', ']',
   '?', '!', '(', ')', '\x7b', '\x7d', ',', '"', '>', '_', '<', ';',
   '%', '\n', '\r',
   '.', '/', '0', '1', '2', '3', '4', '5', '6', '7', '8', '9', ':']

/-! ## Placeholder substitutions

`re.sub` replaces the leftmost match, then continues scanning from the end
of the match.  Each of the four patterns is modelled by a one-pass scanner
with the same semantics. -/

/-- `re.compile('[0-9]+').sub(' number ', mail)`: a maximal run of digits is
replaced by `" number "`.  The flag records whether the scanner is inside a
digit run whose replacement has already been emitted. -/
def subNumbersA : Bool → List Char → List Char
  | _, [] => []
  | inRun, c :: cs =>
    if isDigitP c then
      if inRun then subNumbersA true cs
      else " number ".data ++ subNumbersA true cs
    else c :: subNumbersA false cs

def subNumbers (l : List Char) : List Char := subNumbersA false l

/-- `re.compile('[$]+').sub(' dollar ', mail)`: a maximal run of dollar signs
is replaced by `" dollar "`. -/
def subDollarA : Bool → List Char → List Char
  | _, [] => []
  | inRun, c :: cs =>
    if c = '$' then
      if inRun then subDollarA true cs
      else " dollar ".data ++ subDollarA true cs
    else c :: subDollarA false cs

def subDollar (l : List Char) : List Char := subDollarA false l

/-- `re.compile('(http|https)://[^\s]*').sub(' httpaddr ', mail)`: at a
position starting with `http://` or `https://` the match extends greedily to
the end of the non-whitespace run; scanning resumes after it (flag `true` =
inside the matched run, skipping it). -/
def subUrlsA : Bool → List Char → List Char
  | _, [] => []
  | true, c :: cs =>
    if isSpaceP c then c :: subUrlsA false cs else subUrlsA true cs
  | false, c :: cs =>
    if "http://".data.isPrefixOf (c :: cs) || "https://".data.isPrefixOf (c :: cs) then
      " httpaddr ".data ++ subUrlsA true cs
    else c :: subUrlsA false cs

def subUrls (l : List Char) : List Char := subUrlsA false l

/-- For `re.compile('[^\s]+@[^\s]+')`: a maximal non-whitespace run matches
iff it has an `'@'` that is neither its first nor its last character (the
greedy match then covers the entire run). -/
def runMatchesEmail (run : List Char) : Bool :=
  ((run.drop 1).dropLast).contains '@'

/-- `re.compile('[^\s]+@[^\s]+').sub(' emailaddr ', mail)`: the matches of
the pattern are exactly the maximal non-whitespace runs with an interior
`'@'`; each such run is replaced whole by `" emailaddr "`. -/
def emitRun (run : List Char) : List Char :=
  if runMatchesEmail run then " emailaddr ".data else run

/-- One step of a right-to-left scan.  The state is `(run, out)`: the maximal
non-whitespace run at the head of the processed suffix, and the processed
suffix's output. -/
def subEmailsStep (c : Char) (st : List Char × List Char) :
    List Char × List Char :=
  if isSpaceP c then ([], c :: (emitRun st.1 ++ st.2))
  else (c :: st.1, st.2)

def subEmails (l : List Char) : List Char :=
  let st := l.foldr subEmailsStep ([], [])
  emitRun st.1 ++ st.2

/-- The four placeholder substitutions of `processMail`, in source order:
numbers, URLs, e-mail addresses, dollar signs. -/
def substitutePlaceholders (l : List Char) : List Char :=
  subDollar (subEmails (subUrls (subNumbers l)))

/-! ### Invariants used for the idempotence of the substitutions -/

/-- No digit occurs, so `[0-9]+` has no match. -/
def digitFree (l : List Char) : Prop := ∀ c ∈ l, isDigitP c = false

/-- No dollar sign occurs, so `[$]+` has no match. -/
def dollarFree (l : List Char) : Prop := ∀ c ∈ l, c ≠ '$'

/-- No suffix of `l` starts with the word `pat`. -/
def noPatSuffix (pat l : List Char) : Prop :=
  ∀ t, t <:+ l → ¬ (pat <+: t)

/-- No suffix starts with `http://` or `https://`, so
`(http|https)://[^\s]*` has no match. -/
def urlFree (l : List Char) : Prop :=
  noPatSuffix "http://".data l ∧ noPatSuffix "https://".data l

/-- No `'@'` has a non-whitespace character immediately on both sides; for a
maximal non-whitespace run this is exactly the absence of an interior `'@'`,
so `[^\s]+@[^\s]+` has no match. -/
def emailFree (l : List Char) : Prop :=
  ∀ x y, isSpaceP x = false → isSpaceP y = false → ¬ ([x, '@', y] <:+: l)

/-- No uppercase ASCII letter occurs (the text has been case-folded). -/
def upperFree (l : List Char) : Prop := ∀ c ∈ l, isUpperA c = false

/-! ## HTML strip -/

/-- `re.compile('<[^<>]+>').sub(' ', mail)`: `<`, then at least one
character that is neither `<` nor `>`, then `>`, replaced by a single space.
Matches of this pattern can never overlap (the interior excludes both angle
brackets), so they can be found by a right-to-left scan.  The state is
`(run, out, after)`: the maximal angle-free run at the head of the processed
suffix, the processed suffix's output, and — when that run is terminated by
a `'>'` — the output of everything after that `'>'`. -/
def stripHtmlStep (c : Char) (st : List Char × List Char × Option (List Char)) :
    List Char × List Char × Option (List Char) :=
  if c = '<' then
    match st.2.2, st.1 with
    | some o, _ :: _ => ([], ' ' :: o, none)
    | _, _ => ([], '<' :: st.2.1, none)
  else if c = '>' then ([], '>' :: st.2.1, some st.2.1)
  else (c :: st.1, c :: st.2.1, st.2.2)

def stripHtml (l : List Char) : List Char :=
  (l.foldr stripHtmlStep ([], [], none)).2.1

/-! ## Per-token cleanup and `processMail` -/

/-- Python `str.strip()`: remove leading and trailing whitespace. -/
def pyStrip (l : List Char) : List Char :=
  ((l.dropWhile isSpaceP).reverse.dropWhile isSpaceP).reverse

/-- `re.compile('[^a-zA-Z0-9]').sub('', word).strip()`. -/
def cleanWord (w : List Char) : List Char :=
  pyStrip (w.filter isAlnumP)

/-- `processMail(mail)`, parameterized by the external Porter stemmer
(`stem`), which the source obtains from `nltk`.  Python's `str.lower()` is
modelled per character by `Char.toLower` (ASCII case folding; characters
outside ASCII are untouched and are later removed by the `[^a-zA-Z0-9]`
cleanup either way). -/
def processMail (stem : List Char → List Char) (mail : List Char) :
    List (List Char) :=
  let body := headerStrip mail
  let lowered := body.map Char.toLower
  let noHtml := stripHtml lowered
  let substituted := substitutePlaceholders noHtml
  let words := splitMail substituted
  (words.map cleanWord).filterMap
    (fun w => if w.isEmpty then none else some (stem w))

/-! ## Vocabulary construction -/

/-- One step of the word-count loop: `all_words_w_count[word] += 1` with the
`except:` initialisation to 1.  A Python dict preserves insertion order, so
a fresh key is appended at the end. -/
def bumpWord (acc : List (List Char × Nat)) (w : List Char) :
    List (List Char × Nat) :=
  if acc.any (fun p => p.1 == w) then
    acc.map (fun p => if p.1 == w then (p.1, p.2 + 1) else p)
  else acc ++ [(w, 1)]

/-- `for mail in mails: for word in mail: count` — the corpus scan. -/
def countWords (mails : List (List (List Char))) : List (List Char × Nat) :=
  (mails.flatten).foldl bumpWord []

/-- Stable insertion for a descending sort by count: a new element goes
after all elements with a count ≥ its own. -/
def insertDesc (x : List Char × Nat) :
    List (List Char × Nat) → List (List Char × Nat)
  | [] => [x]
  | y :: ys => if y.2 < x.2 then x :: y :: ys else y :: insertDesc x ys

/-- `sorted(all_words_w_count.items(), key=lambda item: item[1],
reverse=True)`: Python's sort is stable, so elements with equal counts keep
their dict (first-seen) order; a stable insertion sort has exactly this
behaviour. -/
def sortDescByCount (l : List (List Char × Nat)) : List (List Char × Nat) :=
  l.foldl (fun acc x => insertDesc x acc) []

/-- `createVocabulary(mails, size)`: count, sort by frequency descending,
keep the words, truncate with `[:size]` (Python slicing never fails). -/
def createVocabulary (mails : List (List (List Char))) (size : Nat) :
    List (List Char) :=
  ((sortDescByCount (countWords mails)).map Prod.fst).take size

/-! ## Feature matrix -/

/-- `getFeatureMatrix(mails, vocab)`: `X = np.zeros((m, n))`, then
`X[i, j] = word in mail` over the nested enumerated loops. -/
def getFeatureMatrix (mails : List (List (List Char)))
    (vocab : List (List Char)) : List (List Nat) :=
  let m := mails.length
  let n := vocab.length
  let X0 : List (List Nat) := List.replicate m (List.replicate n 0)
  mails.enum.foldl (fun X im =>
    vocab.enum.foldl (fun X jw =>
      X.set im.1 ((X.getD im.1 []).set jw.1 (if jw.2 ∈ im.2 then 1 else 0)))
      X) X0

/-! ## Prediction entry point

`predictSamples(filenames)` prints its results; the model collects the
printed lines in order.  The file system, the global `vocabulary` and the
trained classifier `clf` (applied row by row, as `sklearn`'s `predict` is)
are external state, passed as parameters; `None` for the globals models the
`NameError` caught by the bare `except:` clauses. -/

def msgNothing : List Char := "Nothing to predict.".data

def msgCouldNotRead (filename : List Char) : List Char :=
  "Could not read ".data ++ filename ++ ".".data

def msgNoVocab : List Char := "No vocabulary has been created.".data

def msgNoModel : List Char := "No model has been trained.".data

def msgIsSpam (filename : List Char) : List Char :=
  filename ++ " is spam.".data

def msgIsNotSpam (filename : List Char) : List Char :=
  filename ++ " is not spam.".data

def predictSamples (stem : List Char → List Char)
    (readFile : List Char → Option (List Char))
    (vocabulary : Option (List (List Char)))
    (clf : Option (List Nat → Bool))
    (filenames : List (List Char)) : List (List Char) :=
  if filenames.isEmpty then [msgNothing]
  else
    let readErrors :=
      (filenames.filter (fun f => (readFile f).isNone)).map msgCouldNotRead
    let clean_mails := (filenames.filterMap readFile).map (processMail stem)
    match vocabulary with
    | none => readErrors ++ [msgNoVocab]
    | some vocab =>
      let X := getFeatureMatrix clean_mails vocab
      match clf with
      | none => readErrors ++ [msgNoModel]
      | some predict =>
        let predictions := X.map predict
        readErrors ++ predictions.enum.map (fun ip =>
          if ip.2 then msgIsSpam (filenames.getD ip.1 [])
          else msgIsNotSpam (filenames.getD ip.1 []))

theorem nnAt_succ_cons (c : Char) (cs : List Char) (i : Nat) :
    nnAt (c :: cs) (i + 1) ↔ nnAt cs i := by
  simp [nnAt]

theorem findNN_spec (l : List Char) :
    (∀ i, findNN l = some i → nnAt l i ∧ ∀ j < i, ¬ nnAt l j) ∧
    (findNN l = none → ∀ i, ¬ nnAt l i) := by
  induction l with
  | nil =>
    refine ⟨fun i h => by simp [findNN] at h, fun _ i h => ?_⟩
    have := h.length_le
    simp at this
  | cons c cs ih =>
    by_cases hpre : ['\n', '\n'] <+: (c :: cs)
    · refine ⟨fun i h => ?_, fun h => ?_⟩
      · simp only [findNN, if_pos hpre] at h
        cases h
        exact ⟨hpre, by omega⟩
      · simp only [findNN, if_pos hpre] at h
        exact absurd h (by simp)
    · constructor
      · intro i h
        simp only [findNN, if_neg hpre] at h
        cases hcs : findNN cs with
        | none => simp [hcs] at h
        | some k =>
          rw [hcs] at h
          simp only [Option.map_some'] at h
          cases h
          refine ⟨(nnAt_succ_cons c cs k).mpr (ih.1 k hcs).1, ?_⟩
          intro j hj
          cases j with
          | zero => exact hpre
          | succ j' =>
            rw [nnAt_succ_cons]
            exact (ih.1 k hcs).2 j' (by omega)
      · intro h i
        simp only [findNN, if_neg hpre] at h
        cases hcs : findNN cs with
        | some k => simp [hcs] at h
        | none =>
          cases i with
          | zero => exact hpre
          | succ i' =>
            rw [nnAt_succ_cons]
            exact ih.2 hcs i'


/-! ## Claim C2: header strip -/

/-- C2 (counterexample): on the text `"ab"`, which contains no two
consecutive newlines, the header-strip step does not return the entire text:
`str.find` returns `-1` and the slice `mail[-1:]` keeps only the final
character. -/
theorem headerStrip_claim_counterexample :
    ¬ (['\n', '\n'] <:+: ['a', 'b']) ∧
    headerStrip ['a', 'b'] = ['b'] ∧
    headerStrip ['a', 'b'] ≠ ['a', 'b'] := by
  refine ⟨by decide, by decide, by decide⟩

/-- C2 (amended): the header-strip step returns the substring *starting at*
the first occurrence of two consecutive newlines (the separator itself is
kept at the head of the body); if no two consecutive newlines occur, it
returns only the last character of the text (`mail[-1:]`, the empty string
for empty input). -/
theorem headerStrip_amended (mail : List Char) :
    (∀ i, nnAt mail i → (∀ j < i, ¬ nnAt mail j) →
      headerStrip mail = mail.drop i) ∧
    ((∀ i, ¬ nnAt mail i) →
      headerStrip mail = mail.drop (mail.length - 1)) := by
  constructor
  · intro i hi hmin
    cases hf : findNN mail with
    | none => exact absurd hi ((findNN_spec mail).2 hf i)
    | some k =>
      obtain ⟨hk, hkmin⟩ := (findNN_spec mail).1 k hf
      have hki : k = i := by
        rcases Nat.lt_trichotomy k i with h | h | h
        · exact absurd hk (hmin k h)
        · exact h
        · exact absurd hi (hkmin i h)
      unfold headerStrip
      rw [hf, hki]
  · intro hno
    cases hf : findNN mail with
    | none => unfold headerStrip; rw [hf]
    | some k => exact absurd ((findNN_spec mail).1 k hf).1 (hno k)

/-- C2 (witness): the amended statement evaluated on a mail with a header
separator and on one without. -/
theorem headerStrip_amended_witness :
    headerStrip ['h', '\n', '\n', 'b'] = ['\n', '\n', 'b'] ∧
    headerStrip ['a', 'b'] = ['b'] := by
  constructor
  · have h := (headerStrip_amended ['h', '\n', '\n', 'b']).1 1 (by decide)
      (by decide)
    simpa using h
  · have h := (headerStrip_amended ['a', 'b']).2 (fun i hn => by
      have hl := List.IsPrefix.length_le hn
      rw [List.length_drop] at hl
      simp only [List.length_cons, List.length_nil] at hl
      have hi0 : i = 0 := by omega
      subst hi0
      exact absurd hn (by decide))
    simpa using h

/-! ## Claim C3: the split delimiter set -/

/-- The codepoint range `.-:` enumerated. -/
theorem mem_dotColonRange (c : Char) :
    ('.' ≤ c ∧ c ≤ ':') ↔
      c ∈ ['.', '/', '0', '1', '2', '3', '4', '5', '6', '7', '8', '9', ':'] := by
  constructor
  · rintro ⟨h1, h2⟩
    have hn1 : 46 ≤ c.toNat := h1
    have hn2 : c.toNat ≤ 58 := h2
    have hc := Char.ofNat_toNat c
    interval_cases h : c.toNat <;> rw [← hc] <;> decide
  · intro h
    fin_cases h <;> exact ⟨by decide, by decide⟩

/-- C3 (counterexample): the hyphen is in the claimed delimiter set but the
code does not split at it, and the digit `'2'` is outside the claimed set
but the code does split at it. -/
theorem splitMail_claim_counterexample :
    '-' ∈ claimedDelims ∧
    splitMail ['a', '-', 'b'] = [['a', '-', 'b']] ∧
    List.splitOnP (fun c => decide (c ∈ claimedDelims)) ['a', '-', 'b'] =
      [['a'], ['b']] ∧
    '2' ∉ claimedDelims ∧
    splitMail ['i', '2', 'j'] = [['i'], ['j']] := by
  refine ⟨by decide, by decide, by decide, by decide, by decide⟩

/-- C3 (amended): the tokenization step splits exactly at the characters of
`actualDelims` — the literals of the class plus the whole codepoint range
`'.'..':'` (which contains the ten digits); the hyphen (a range marker in
the class) and the single quote (an artifact of Python implicit string
concatenation) are not delimiters. -/
theorem splitMail_amended :
    (∀ c, isDelimP c = true ↔ c ∈ actualDelims) ∧
    (∀ mail, splitMail mail =
      List.splitOnP (fun c => decide (c ∈ actualDelims)) mail) ∧
    '-' ∉ actualDelims ∧ '\'' ∉ actualDelims ∧
    (∀ d, isDigitP d = true → d ∈ actualDelims) := by
  have hsplit : actualDelims =
      [' ', '@', '$', '/', '#', '&', '*', '+', '=', '[', ']',
       '?', '!', '(', ')', '\x7b', '\x7d', ',', '"', '>', '_', '<', ';',
       '%', '\n', '\r'] ++
      ['.', '/', '0', '1', '2', '3', '4', '5', '6', '7', '8', '9', ':'] := by
    decide
  have hiff : ∀ c, isDelimP c = true ↔ c ∈ actualDelims := by
    intro c
    by_cases hr : '.' ≤ c ∧ c ≤ ':'
    · have h1 : isDelimP c = true := by simp [isDelimP, hr.1, hr.2]
      have hsub : (['.', '/', '0', '1', '2', '3', '4', '5', '6', '7', '8',
          '9', ':'] : List Char) ⊆ actualDelims := by decide
      have h2 : c ∈ actualDelims := hsub ((mem_dotColonRange c).mp hr)
      simp [h1, h2]
    · have hlit : c ∈ actualDelims ↔
          c ∈ ([' ', '@', '$', '/', '#', '&', '*', '+', '=', '[', ']',
            '?', '!', '(', ')', '\x7b', '\x7d', ',', '"', '>', '_', '<', ';',
            '%', '\n', '\r'] : List Char) := by
        rw [hsplit, List.mem_append]
        constructor
        · rintro (h | h)
          · exact h
          · exact absurd ((mem_dotColonRange c).mpr h) hr
        · exact Or.inl
      rw [hlit]
      unfold isDelimP
      simp only [Bool.or_eq_true, decide_eq_true_eq, Bool.and_eq_true,
        List.mem_cons, List.not_mem_nil, or_false]
      simp [hr, or_assoc]
  refine ⟨hiff, ?_, by decide, by decide, ?_⟩
  · intro mail
    have hfun : isDelimP = fun c => decide (c ∈ actualDelims) := by
      funext c
      by_cases h : c ∈ actualDelims
      · rw [(hiff c).mpr h]; simp [h]
      · cases hb : isDelimP c with
        | true => exact absurd ((hiff c).mp hb) h
        | false => simp [h]
    unfold splitMail
    rw [hfun]
  · intro d hd
    have : isDelimP d = true := by
      unfold isDelimP
      have h1 : '.' ≤ d := by
        have : 48 ≤ d.toNat := by
          simpa [isDigitP] using (Bool.and_eq_true _ _ |>.mp hd).1
        show (46 : Nat) ≤ d.toNat
        omega
      have h2 : d ≤ ':' := by
        have : d.toNat ≤ 57 := by
          simpa [isDigitP] using (Bool.and_eq_true _ _ |>.mp hd).2
        show d.toNat ≤ (58 : Nat)
        omega
      simp [h1, h2]
    exact (hiff d).mp this

/-! ## Unfolding laws for `subEmails` -/

theorem dropWhile_length_le {α : Type} (p : α → Bool) (l : List α) :
    (l.dropWhile p).length ≤ l.length := by
  induction l with
  | nil => simp [List.dropWhile]
  | cons a t ih =>
    by_cases hp : p a
    · rw [List.dropWhile_cons_of_pos hp, List.length_cons]; omega
    · rw [List.dropWhile_cons_of_neg hp]

theorem subEmails_nil : subEmails [] = [] := rfl

theorem subEmails_state (l : List Char) :
    l.foldr subEmailsStep ([], []) =
      (l.takeWhile (fun x => !isSpaceP x),
       subEmails (l.dropWhile (fun x => !isSpaceP x))) := by
  induction l with
  | nil => rfl
  | cons c cs ih =>
    by_cases hs : isSpaceP c
    · rw [List.foldr_cons, ih]
      rw [List.takeWhile_cons_of_neg (by simp [hs]),
        List.dropWhile_cons_of_neg (by simp [hs])]
      show subEmailsStep c _ = ([], subEmails (c :: cs))
      rw [subEmailsStep, if_pos hs]
      have : subEmails (c :: cs) =
          c :: (emitRun (cs.takeWhile (fun x => !isSpaceP x)) ++
            subEmails (cs.dropWhile (fun x => !isSpaceP x))) := by
        show emitRun (((c :: cs).foldr subEmailsStep ([], [])).1) ++
            ((c :: cs).foldr subEmailsStep ([], [])).2 = _
        rw [List.foldr_cons, ih]
        show emitRun (subEmailsStep c _).1 ++ (subEmailsStep c _).2 = _
        rw [subEmailsStep, if_pos hs]
        rfl
      rw [this]
    · rw [List.foldr_cons, ih]
      rw [List.takeWhile_cons_of_pos (by simp [hs]),
        List.dropWhile_cons_of_pos (by simp [hs])]
      show subEmailsStep c _ = _
      rw [subEmailsStep, if_neg hs]

theorem subEmails_space_cons (c : Char) (cs : List Char)
    (hs : isSpaceP c = true) : subEmails (c :: cs) = c :: subEmails cs := by
  show emitRun (((c :: cs).foldr subEmailsStep ([], [])).1) ++
      ((c :: cs).foldr subEmailsStep ([], [])).2 = _
  rw [List.foldr_cons, subEmails_state cs]
  show emitRun (subEmailsStep c _).1 ++ (subEmailsStep c _).2 = _
  rw [subEmailsStep, if_pos hs]
  show emitRun [] ++ _ = _
  rw [show emitRun [] = [] from rfl, List.nil_append]
  show c :: (emitRun _ ++ _) = _
  rw [show subEmails cs =
      emitRun ((cs.foldr subEmailsStep ([], [])).1) ++
        ((cs.foldr subEmailsStep ([], [])).2) from rfl, subEmails_state cs]

theorem subEmails_run (l : List Char) :
    subEmails l = emitRun (l.takeWhile (fun x => !isSpaceP x)) ++
      subEmails (l.dropWhile (fun x => !isSpaceP x)) := by
  show emitRun ((l.foldr subEmailsStep ([], [])).1) ++
      ((l.foldr subEmailsStep ([], [])).2) = _
  rw [subEmails_state l]

theorem subEmails_run_cons (c : Char) (cs : List Char)
    (_hs : isSpaceP c = false) :
    subEmails (c :: cs) =
      (if runMatchesEmail ((c :: cs).takeWhile (fun x => !isSpaceP x)) then
        " emailaddr ".data
      else (c :: cs).takeWhile (fun x => !isSpaceP x)) ++
        subEmails ((c :: cs).dropWhile (fun x => !isSpaceP x)) := by
  rw [subEmails_run (c :: cs)]
  rfl

theorem subEmails_induction (motive : List Char → Prop) (h0 : motive [])
    (hsp : ∀ c cs, isSpaceP c = true → motive cs → motive (c :: cs))
    (hrun : ∀ c cs, isSpaceP c = false →
      motive ((c :: cs).dropWhile (fun x => !isSpaceP x)) →
      motive (c :: cs)) :
    ∀ l, motive l := by
  have key : ∀ n (l : List Char), l.length ≤ n → motive l := by
    intro n
    induction n with
    | zero =>
      intro l hl
      have h0l : l = [] := List.eq_nil_of_length_eq_zero (by omega)
      exact h0l ▸ h0
    | succ n ih =>
      intro l hl
      cases l with
      | nil => exact h0
      | cons c cs =>
        by_cases hs : isSpaceP c
        · exact hsp c cs hs (ih cs (by simp only [List.length_cons] at hl; omega))
        · refine hrun c cs (by simpa using hs) (ih _ ?_)
          rw [List.dropWhile_cons_of_pos (by simpa using hs)]
          have hd := dropWhile_length_le (fun x => !isSpaceP x) cs
          simp only [List.length_cons] at hl
          omega
  exact fun l => key l.length l le_rfl

/-! ## Prefix and suffix decomposition helpers -/

theorem suffix_append_decomp {t w x : List Char} (ht : t <:+ w ++ x) :
    t <:+ x ∨ ∃ s, s <:+ w ∧ s ≠ [] ∧ t = s ++ x := by
  induction w with
  | nil => exact Or.inl (by simpa using ht)
  | cons a w ih =>
    rw [List.cons_append, List.suffix_cons_iff] at ht
    rcases ht with h | h
    · exact Or.inr ⟨a :: w, List.suffix_rfl, List.cons_ne_nil a w, h⟩
    · rcases ih h with h2 | ⟨s, hs1, hs2, hs3⟩
      · exact Or.inl h2
      · exact Or.inr ⟨s, hs1.trans (List.suffix_cons a w), hs2, hs3⟩

theorem prefix_append_long {pat s x : List Char} (hp : pat <+: s ++ x)
    (hl : pat.length ≤ s.length) : pat <+: s := by
  have h1 : pat = (s ++ x).take pat.length := List.prefix_iff_eq_take.mp hp
  rw [List.take_append_eq_append_take, Nat.sub_eq_zero_of_le hl,
    List.take_zero, List.append_nil] at h1
  rw [h1]
  exact List.take_prefix _ _

theorem prefix_append_short {pat s x : List Char} (hp : pat <+: s ++ x)
    (hl : s.length < pat.length) :
    s = pat.take s.length ∧ pat.drop s.length <+: x := by
  obtain ⟨r, hr⟩ := hp
  have h1 : (pat ++ r).take s.length = (s ++ x).take s.length := by rw [hr]
  rw [List.take_append_eq_append_take, Nat.sub_eq_zero_of_le (Nat.le_of_lt hl),
    List.take_zero, List.append_nil] at h1
  rw [List.take_append_eq_append_take, Nat.sub_self, List.take_zero,
    List.append_nil, List.take_length] at h1
  refine ⟨h1.symm, ?_⟩
  have h3 : pat.take s.length ++ pat.drop s.length <+: pat.take s.length ++ x := by
    rw [List.take_append_drop, h1]
    exact ⟨r, hr⟩
  exact (List.prefix_append_right_inj _).mp h3

theorem noPatSuffix_nil {pat : List Char} (h : pat ≠ []) : noPatSuffix pat [] := by
  intro t ht hp
  rw [List.suffix_nil.mp ht] at hp
  exact h (List.prefix_nil.mp hp)

theorem noPatSuffix_cons {pat : List Char} {c : Char} {x : List Char}
    (h1 : ¬ (pat <+: c :: x)) (h2 : noPatSuffix pat x) :
    noPatSuffix pat (c :: x) := by
  intro t ht hp
  rcases List.suffix_cons_iff.mp ht with h | h
  · exact h1 (h ▸ hp)
  · exact h2 t h hp

theorem noPatSuffix_suffix {pat l t : List Char} (h : noPatSuffix pat l)
    (ht : t <:+ l) : noPatSuffix pat t :=
  fun u hu => h u (hu.trans ht)

theorem urlFree_suffix {l t : List Char} (h : urlFree l) (ht : t <:+ l) :
    urlFree t :=
  ⟨noPatSuffix_suffix h.1 ht, noPatSuffix_suffix h.2 ht⟩

theorem noPatSuffix_append {pat w x : List Char}
    (hw : ∀ s ∈ w.tails, s = [] ∨
      (¬ (pat <+: s) ∧ ¬ (s.length < pat.length ∧ s = pat.take s.length)))
    (hx : noPatSuffix pat x) : noPatSuffix pat (w ++ x) := by
  intro t ht hp
  rcases suffix_append_decomp ht with h | ⟨s, hs1, hs2, rfl⟩
  · exact hx t h hp
  · rcases hw s ((List.mem_tails s w).mpr hs1) with h | ⟨h1, h2⟩
    · exact hs2 h
    · rcases le_or_lt pat.length s.length with hl | hl
      · exact h1 (prefix_append_long hp hl)
      · exact h2 ⟨hl, (prefix_append_short hp hl).1⟩

theorem dropWhile_head_false {p : Char → Bool} {l : List Char} {y : Char}
    {ys : List Char} (h : l.dropWhile p = y :: ys) : p y = false := by
  induction l with
  | nil => simp [List.dropWhile] at h
  | cons a t ih =>
    by_cases hp : p a
    · rw [List.dropWhile_cons_of_pos hp] at h
      exact ih h
    · rw [List.dropWhile_cons_of_neg hp] at h
      cases h
      simpa using hp

/-! ## Claim C7: idempotence of the placeholder substitutions

Stage 1: character-level invariants.  After the four substitutions no digit
and no dollar sign remains, and every character of the output either comes
from the input or from one of the four inserted placeholder words. -/

theorem subNumbersA_digitFree (l : List Char) :
    ∀ b, digitFree (subNumbersA b l) := by
  have hword : ∀ c ∈ " number ".data, isDigitP c = false := by decide
  induction l with
  | nil => intro b c hc; simp [subNumbersA] at hc
  | cons a t ih =>
    intro b c hc
    by_cases hd : isDigitP a
    · cases b with
      | true =>
        rw [show subNumbersA true (a :: t) = subNumbersA true t by
          simp [subNumbersA, hd]] at hc
        exact ih true c hc
      | false =>
        rw [show subNumbersA false (a :: t) =
            " number ".data ++ subNumbersA true t by
          simp [subNumbersA, hd]] at hc
        rcases List.mem_append.mp hc with h | h
        · exact hword c h
        · exact ih true c h
    · have hne : isDigitP a = false := by simpa using hd
      rw [show subNumbersA b (a :: t) = a :: subNumbersA false t by
        simp [subNumbersA, hne]] at hc
      rcases List.mem_cons.mp hc with h | h
      · rw [h]; exact hne
      · exact ih false c h

theorem subNumbersA_id (l : List Char) (hl : digitFree l) :
    ∀ b, subNumbersA b l = l := by
  induction l with
  | nil => intro b; simp [subNumbersA]
  | cons a t ih =>
    intro b
    have ha : isDigitP a = false := hl a (List.mem_cons_self a t)
    have ht : digitFree t := fun c hc => hl c (List.mem_cons_of_mem a hc)
    rw [show subNumbersA b (a :: t) = a :: subNumbersA false t by
      simp [subNumbersA, ha]]
    rw [ih ht false]

theorem subDollarA_dollarFree (l : List Char) :
    ∀ b, dollarFree (subDollarA b l) := by
  have hword : ∀ c ∈ " dollar ".data, c ≠ '$' := by decide
  induction l with
  | nil => intro b c hc; simp [subDollarA] at hc
  | cons a t ih =>
    intro b c hc
    by_cases hd : a = '$'
    · cases b with
      | true =>
        rw [show subDollarA true (a :: t) = subDollarA true t by
          simp [subDollarA, hd]] at hc
        exact ih true c hc
      | false =>
        rw [show subDollarA false (a :: t) =
            " dollar ".data ++ subDollarA true t by
          simp [subDollarA, hd]] at hc
        rcases List.mem_append.mp hc with h | h
        · exact hword c h
        · exact ih true c h
    · rw [show subDollarA b (a :: t) = a :: subDollarA false t by
        simp [subDollarA, hd]] at hc
      rcases List.mem_cons.mp hc with h | h
      · rw [h]; exact hd
      · exact ih false c h

theorem subDollarA_id (l : List Char) (hl : dollarFree l) :
    ∀ b, subDollarA b l = l := by
  induction l with
  | nil => intro b; simp [subDollarA]
  | cons a t ih =>
    intro b
    have ha : a ≠ '$' := hl a (List.mem_cons_self a t)
    have ht : dollarFree t := fun c hc => hl c (List.mem_cons_of_mem a hc)
    rw [show subDollarA b (a :: t) = a :: subDollarA false t by
      simp [subDollarA, ha]]
    rw [ih ht false]

theorem subUrlsA_chars (l : List Char) :
    ∀ b c, c ∈ subUrlsA b l → c ∈ l ∨ c ∈ " httpaddr ".data := by
  induction l with
  | nil => intro b c hc; simp [subUrlsA] at hc
  | cons a t ih =>
    intro b c hc
    cases b with
    | true =>
      by_cases hs : isSpaceP a
      · rw [show subUrlsA true (a :: t) = a :: subUrlsA false t by
          simp [subUrlsA, hs]] at hc
        rcases List.mem_cons.mp hc with h | h
        · exact Or.inl (h ▸ List.mem_cons_self a t)
        · rcases ih false c h with h2 | h2
          · exact Or.inl (List.mem_cons_of_mem a h2)
          · exact Or.inr h2
      · rw [show subUrlsA true (a :: t) = subUrlsA true t by
          simp [subUrlsA, hs]] at hc
        rcases ih true c hc with h2 | h2
        · exact Or.inl (List.mem_cons_of_mem a h2)
        · exact Or.inr h2
    | false =>
      by_cases hm : ("http://".data.isPrefixOf (a :: t) ||
          "https://".data.isPrefixOf (a :: t)) = true
      · rw [show subUrlsA false (a :: t) =
            " httpaddr ".data ++ subUrlsA true t by
          simp only [subUrlsA]; rw [if_pos hm]] at hc
        rcases List.mem_append.mp hc with h | h
        · exact Or.inr h
        · rcases ih true c h with h2 | h2
          · exact Or.inl (List.mem_cons_of_mem a h2)
          · exact Or.inr h2
      · rw [show subUrlsA false (a :: t) = a :: subUrlsA false t by
          simp only [subUrlsA]; rw [if_neg hm]] at hc
        rcases List.mem_cons.mp hc with h | h
        · exact Or.inl (h ▸ List.mem_cons_self a t)
        · rcases ih false c h with h2 | h2
          · exact Or.inl (List.mem_cons_of_mem a h2)
          · exact Or.inr h2

theorem subEmails_chars (l : List Char) :
    ∀ c, c ∈ subEmails l → c ∈ l ∨ c ∈ " emailaddr ".data := by
  induction l using subEmails_induction with
  | h0 => intro c hc; rw [subEmails_nil] at hc; exact absurd hc (List.not_mem_nil c)
  | hsp c cs hs ih =>
    intro x hx
    rw [subEmails_space_cons c cs hs] at hx
    rcases List.mem_cons.mp hx with h | h
    · exact Or.inl (h ▸ List.mem_cons_self c cs)
    · rcases ih x h with h2 | h2
      · exact Or.inl (List.mem_cons_of_mem c h2)
      · exact Or.inr h2
  | hrun c cs hs ih =>
    intro x hx
    rw [subEmails_run_cons c cs hs] at hx
    rcases List.mem_append.mp hx with h | h
    · by_cases hm : runMatchesEmail ((c :: cs).takeWhile (fun y => !isSpaceP y))
      · rw [if_pos hm] at h; exact Or.inr h
      · rw [if_neg hm] at h; exact Or.inl ((List.takeWhile_prefix _).subset h)
    · rcases ih x h with h2 | h2
      · exact Or.inl ((List.dropWhile_suffix _).subset h2)
      · exact Or.inr h2

/-! ### URL-freeness: established by `subUrls`, preserved by `subEmails` and
`subDollar`, and making a second `subUrls` pass the identity -/

theorem subUrlsA_false_prefix_reflect (cs q : List Char)
    (hq : ∀ a ∈ q, isSpaceP a = false) (hp : q <+: subUrlsA false cs) :
    q <+: cs := by
  induction cs generalizing q with
  | nil =>
    rw [show subUrlsA false [] = [] from rfl] at hp
    rw [List.prefix_nil.mp hp]
  | cons c cs ih =>
    by_cases hm : ("http://".data.isPrefixOf (c :: cs) ||
        "https://".data.isPrefixOf (c :: cs)) = true
    · rw [show subUrlsA false (c :: cs) =
          " httpaddr ".data ++ subUrlsA true cs by
        simp only [subUrlsA]; rw [if_pos hm]] at hp
      cases q with
      | nil => exact List.nil_prefix
      | cons a q' =>
        rw [show (" httpaddr ".data ++ subUrlsA true cs) =
            ' ' :: ("httpaddr ".data ++ subUrlsA true cs) from rfl,
          List.cons_prefix_cons] at hp
        have : isSpaceP a = false := hq a (List.mem_cons_self a q')
        rw [hp.1] at this
        exact absurd this (by decide)
    · rw [show subUrlsA false (c :: cs) = c :: subUrlsA false cs by
        simp only [subUrlsA]; rw [if_neg hm]] at hp
      cases q with
      | nil => exact List.nil_prefix
      | cons a q' =>
        rw [List.cons_prefix_cons] at hp
        exact List.cons_prefix_cons.mpr
          ⟨hp.1, ih q' (fun b hb => hq b (List.mem_cons_of_mem a hb)) hp.2⟩

theorem subUrlsA_urlFree (l : List Char) : ∀ b, urlFree (subUrlsA b l) := by
  have hw1 : ∀ s ∈ " httpaddr ".data.tails, s = [] ∨
      (¬ ("http://".data <+: s) ∧
       ¬ (s.length < "http://".data.length ∧
          s = "http://".data.take s.length)) := by decide
  have hw2 : ∀ s ∈ " httpaddr ".data.tails, s = [] ∨
      (¬ ("https://".data <+: s) ∧
       ¬ (s.length < "https://".data.length ∧
          s = "https://".data.take s.length)) := by decide
  induction l with
  | nil =>
    intro b
    rw [show subUrlsA b [] = [] by cases b <;> rfl]
    exact ⟨noPatSuffix_nil (by decide), noPatSuffix_nil (by decide)⟩
  | cons c cs ih =>
    intro b
    cases b with
    | true =>
      by_cases hs : isSpaceP c
      · rw [show subUrlsA true (c :: cs) = c :: subUrlsA false cs by
          simp only [subUrlsA]; rw [if_pos hs]]
        have hcs := ih false
        refine ⟨noPatSuffix_cons ?_ hcs.1, noPatSuffix_cons ?_ hcs.2⟩
        · intro hp
          rw [show "http://".data = 'h' :: "ttp://".data from rfl,
            List.cons_prefix_cons] at hp
          rw [← hp.1] at hs
          exact absurd hs (by decide)
        · intro hp
          rw [show "https://".data = 'h' :: "ttps://".data from rfl,
            List.cons_prefix_cons] at hp
          rw [← hp.1] at hs
          exact absurd hs (by decide)
      · rw [show subUrlsA true (c :: cs) = subUrlsA true cs by
          simp only [subUrlsA]; rw [if_neg hs]]
        exact ih true
    | false =>
      by_cases hm : ("http://".data.isPrefixOf (c :: cs) ||
          "https://".data.isPrefixOf (c :: cs)) = true
      · rw [show subUrlsA false (c :: cs) =
            " httpaddr ".data ++ subUrlsA true cs by
          simp only [subUrlsA]; rw [if_pos hm]]
        have hcs := ih true
        exact ⟨noPatSuffix_append hw1 hcs.1, noPatSuffix_append hw2 hcs.2⟩
      · rw [show subUrlsA false (c :: cs) = c :: subUrlsA false cs by
          simp only [subUrlsA]; rw [if_neg hm]]
        rw [Bool.or_eq_true] at hm
        push_neg at hm
        have hm1 : ¬ ("http://".data <+: c :: cs) := fun h =>
          hm.1 (List.isPrefixOf_iff_prefix.mpr h)
        have hm2 : ¬ ("https://".data <+: c :: cs) := fun h =>
          hm.2 (List.isPrefixOf_iff_prefix.mpr h)
        have hcs := ih false
        refine ⟨noPatSuffix_cons ?_ hcs.1, noPatSuffix_cons ?_ hcs.2⟩
        · intro hp
          rw [show "http://".data = 'h' :: "ttp://".data from rfl,
            List.cons_prefix_cons] at hp
          have := subUrlsA_false_prefix_reflect cs "ttp://".data
            (by decide) hp.2
          exact hm1 (by
            rw [show "http://".data = 'h' :: "ttp://".data from rfl]
            exact List.cons_prefix_cons.mpr ⟨hp.1, this⟩)
        · intro hp
          rw [show "https://".data = 'h' :: "ttps://".data from rfl,
            List.cons_prefix_cons] at hp
          have := subUrlsA_false_prefix_reflect cs "ttps://".data
            (by decide) hp.2
          exact hm2 (by
            rw [show "https://".data = 'h' :: "ttps://".data from rfl]
            exact List.cons_prefix_cons.mpr ⟨hp.1, this⟩)

theorem subUrlsA_id (l : List Char) (hl : urlFree l) : subUrlsA false l = l := by
  induction l with
  | nil => rfl
  | cons c cs ih =>
    have hm : ("http://".data.isPrefixOf (c :: cs) ||
        "https://".data.isPrefixOf (c :: cs)) = false := by
      rw [Bool.or_eq_false_iff]
      constructor
      · by_contra h
        rw [Bool.not_eq_false, List.isPrefixOf_iff_prefix] at h
        exact hl.1 (c :: cs) List.suffix_rfl h
      · by_contra h
        rw [Bool.not_eq_false, List.isPrefixOf_iff_prefix] at h
        exact hl.2 (c :: cs) List.suffix_rfl h
    rw [show subUrlsA false (c :: cs) = c :: subUrlsA false cs by
      simp only [subUrlsA]; rw [if_neg (by rw [hm]; exact Bool.false_ne_true)]]
    rw [ih (urlFree_suffix hl (List.suffix_cons c cs))]

theorem subEmails_urlFree (l : List Char) :
    urlFree l → urlFree (subEmails l) := by
  have hw1 : ∀ s ∈ " emailaddr ".data.tails, s = [] ∨
      (¬ ("http://".data <+: s) ∧
       ¬ (s.length < "http://".data.length ∧
          s = "http://".data.take s.length)) := by decide
  have hw2 : ∀ s ∈ " emailaddr ".data.tails, s = [] ∨
      (¬ ("https://".data <+: s) ∧
       ¬ (s.length < "https://".data.length ∧
          s = "https://".data.take s.length)) := by decide
  induction l using subEmails_induction with
  | h0 =>
    intro _
    rw [subEmails_nil]
    exact ⟨noPatSuffix_nil (by decide), noPatSuffix_nil (by decide)⟩
  | hsp c cs hs ih =>
    intro hl
    rw [subEmails_space_cons c cs hs]
    have hcs := ih (urlFree_suffix hl (List.suffix_cons c cs))
    refine ⟨noPatSuffix_cons ?_ hcs.1, noPatSuffix_cons ?_ hcs.2⟩
    · intro hp
      rw [show "http://".data = 'h' :: "ttp://".data from rfl,
        List.cons_prefix_cons] at hp
      rw [← hp.1] at hs
      exact absurd hs (by decide)
    · intro hp
      rw [show "https://".data = 'h' :: "ttps://".data from rfl,
        List.cons_prefix_cons] at hp
      rw [← hp.1] at hs
      exact absurd hs (by decide)
  | hrun c cs hs ih =>
    intro hl
    have hrest : urlFree ((c :: cs).dropWhile (fun x => !isSpaceP x)) :=
      urlFree_suffix hl (List.dropWhile_suffix _)
    have hX := ih hrest
    rw [subEmails_run_cons c cs hs]
    by_cases hm : runMatchesEmail ((c :: cs).takeWhile (fun x => !isSpaceP x))
    · rw [if_pos hm]
      exact ⟨noPatSuffix_append hw1 hX.1, noPatSuffix_append hw2 hX.2⟩
    · rw [if_neg hm]
      have key : ∀ pat : List Char, (∀ a ∈ pat, isSpaceP a = false) →
          noPatSuffix pat (c :: cs) →
          noPatSuffix pat (subEmails ((c :: cs).dropWhile (fun x => !isSpaceP x))) →
          noPatSuffix pat ((c :: cs).takeWhile (fun x => !isSpaceP x) ++
            subEmails ((c :: cs).dropWhile (fun x => !isSpaceP x))) := by
        intro pat hpat hlp hXp
        intro t ht hp
        rcases suffix_append_decomp ht with h | ⟨s, hs1, hs2, rfl⟩
        · exact hXp t h hp
        · rcases le_or_lt pat.length s.length with hlen | hlen
          · have hps := prefix_append_long hp hlen
            obtain ⟨u, hu⟩ := hs1
            have hsr : s ++ (c :: cs).dropWhile (fun x => !isSpaceP x) <:+
                (c :: cs) := by
              refine ⟨u, ?_⟩
              rw [← List.append_assoc, hu, List.takeWhile_append_dropWhile]
            exact hlp _ hsr (hps.trans (List.prefix_append s _))
          · obtain ⟨hse, hdp⟩ := prefix_append_short hp hlen
            cases hrest2 : (c :: cs).dropWhile (fun x => !isSpaceP x) with
            | nil =>
              rw [hrest2, subEmails_nil] at hdp
              have := List.prefix_nil.mp hdp
              have hlen2 := congrArg List.length this
              rw [List.length_drop] at hlen2
              simp at hlen2
              omega
            | cons r0 r' =>
              have hr0 : isSpaceP r0 = true := by
                have := dropWhile_head_false hrest2
                simpa using this
              rw [hrest2, subEmails_space_cons r0 r' hr0] at hdp
              cases hdrop : pat.drop s.length with
              | nil =>
                have hlen2 := congrArg List.length hdrop
                rw [List.length_drop] at hlen2
                simp at hlen2
                omega
              | cons d ds =>
                rw [hdrop, List.cons_prefix_cons] at hdp
                have hdmem : d ∈ pat :=
                  List.mem_of_mem_drop (hdrop ▸ List.mem_cons_self d ds)
                have := hpat d hdmem
                rw [hdp.1] at this
                rw [this] at hr0
                exact Bool.false_ne_true hr0
      exact ⟨key "http://".data (by decide) hl.1 hX.1,
        key "https://".data (by decide) hl.2 hX.2⟩

theorem subDollarA_false_prefix_reflect (cs q : List Char)
    (hq : ∀ a ∈ q, isSpaceP a = false) (hp : q <+: subDollarA false cs) :
    q <+: cs := by
  induction cs generalizing q with
  | nil =>
    rw [show subDollarA false [] = [] from rfl] at hp
    rw [List.prefix_nil.mp hp]
  | cons c cs ih =>
    by_cases hd : c = '$'
    · rw [show subDollarA false (c :: cs) =
          " dollar ".data ++ subDollarA true cs by
        simp [subDollarA, hd]] at hp
      cases q with
      | nil => exact List.nil_prefix
      | cons a q' =>
        rw [show (" dollar ".data ++ subDollarA true cs) =
            ' ' :: ("dollar ".data ++ subDollarA true cs) from rfl,
          List.cons_prefix_cons] at hp
        have : isSpaceP a = false := hq a (List.mem_cons_self a q')
        rw [hp.1] at this
        exact absurd this (by decide)
    · rw [show subDollarA false (c :: cs) = c :: subDollarA false cs by
        simp [subDollarA, hd]] at hp
      cases q with
      | nil => exact List.nil_prefix
      | cons a q' =>
        rw [List.cons_prefix_cons] at hp
        exact List.cons_prefix_cons.mpr
          ⟨hp.1, ih q' (fun b hb => hq b (List.mem_cons_of_mem a hb)) hp.2⟩

theorem subDollarA_urlFree (l : List Char) :
    ∀ b, urlFree l → urlFree (subDollarA b l) := by
  have hw1 : ∀ s ∈ " dollar ".data.tails, s = [] ∨
      (¬ ("http://".data <+: s) ∧
       ¬ (s.length < "http://".data.length ∧
          s = "http://".data.take s.length)) := by decide
  have hw2 : ∀ s ∈ " dollar ".data.tails, s = [] ∨
      (¬ ("https://".data <+: s) ∧
       ¬ (s.length < "https://".data.length ∧
          s = "https://".data.take s.length)) := by decide
  induction l with
  | nil =>
    intro b _
    rw [show subDollarA b [] = [] by cases b <;> rfl]
    exact ⟨noPatSuffix_nil (by decide), noPatSuffix_nil (by decide)⟩
  | cons c cs ih =>
    intro b hl
    have hcs : urlFree cs := urlFree_suffix hl (List.suffix_cons c cs)
    by_cases hd : c = '$'
    · cases b with
      | true =>
        rw [show subDollarA true (c :: cs) = subDollarA true cs by
          simp [subDollarA, hd]]
        exact ih true hcs
      | false =>
        rw [show subDollarA false (c :: cs) =
            " dollar ".data ++ subDollarA true cs by
          simp [subDollarA, hd]]
        have hX := ih true hcs
        exact ⟨noPatSuffix_append hw1 hX.1, noPatSuffix_append hw2 hX.2⟩
    · rw [show subDollarA b (c :: cs) = c :: subDollarA false cs by
        simp [subDollarA, hd]]
      have hX := ih false hcs
      refine ⟨noPatSuffix_cons ?_ hX.1, noPatSuffix_cons ?_ hX.2⟩
      · intro hp
        rw [show "http://".data = 'h' :: "ttp://".data from rfl,
          List.cons_prefix_cons] at hp
        have := subDollarA_false_prefix_reflect cs "ttp://".data
          (by decide) hp.2
        exact hl.1 (c :: cs) List.suffix_rfl (by
          rw [show "http://".data = 'h' :: "ttp://".data from rfl]
          exact List.cons_prefix_cons.mpr ⟨hp.1, this⟩)
      · intro hp
        rw [show "https://".data = 'h' :: "ttps://".data from rfl,
          List.cons_prefix_cons] at hp
        have := subDollarA_false_prefix_reflect cs "ttps://".data
          (by decide) hp.2
        exact hl.2 (c :: cs) List.suffix_rfl (by
          rw [show "https://".data = 'h' :: "ttps://".data from rfl]
          exact List.cons_prefix_cons.mpr ⟨hp.1, this⟩)

/-! ### E-mail-freeness: established by `subEmails`, preserved by
`subDollar`, and making a second `subEmails` pass the identity -/

theorem emailFree_nil : emailFree [] := by
  intro x y _ _ ht
  obtain ⟨s, t, h⟩ := ht
  simp at h

theorem emailFree_infix {l t : List Char} (h : emailFree l) (ht : t <:+: l) :
    emailFree t :=
  fun x y hx hy hinf => h x y hx hy (hinf.trans ht)

theorem emailFree_suffix {l t : List Char} (h : emailFree l) (ht : t <:+ l) :
    emailFree t :=
  emailFree_infix h ht.isInfix

theorem emailFree_cons_space {c : Char} {x : List Char}
    (hs : isSpaceP c = true) (hx : emailFree x) : emailFree (c :: x) := by
  intro a b ha hb ht
  rcases List.infix_cons_iff.mp ht with h | h
  · rw [List.cons_prefix_cons] at h
    rw [h.1, hs] at ha
    exact Bool.false_ne_true ha.symm
  · exact hx a b ha hb h

theorem emailFree_wordAppend {w x : List Char} (hw : '@' ∉ w)
    (hwlast : ∀ (h : w ≠ []), isSpaceP (w.getLast h) = true)
    (hx : emailFree x) : emailFree (w ++ x) := by
  induction w with
  | nil => simpa using hx
  | cons a w ih =>
    intro p q hp hq ht
    rw [List.cons_append] at ht
    rcases List.infix_cons_iff.mp ht with h | h
    · rw [List.cons_prefix_cons] at h
      obtain ⟨hpa, h2⟩ := h
      cases w with
      | nil =>
        have hal : isSpaceP a = true := by
          have := hwlast (List.cons_ne_nil a [])
          simpa using this
        rw [← hpa] at hal
        rw [hal] at hp
        exact Bool.false_ne_true hp.symm
      | cons b w' =>
        rw [List.cons_append, List.cons_prefix_cons] at h2
        refine hw ?_
        rw [h2.1]
        exact List.mem_cons_of_mem a (List.mem_cons_self b w')
    · refine ih (fun hm => hw (List.mem_cons_of_mem a hm)) ?_ p q hp hq h
      intro hne
      have := hwlast (List.cons_ne_nil a w)
      rwa [List.getLast_cons hne] at this

theorem dropLast_drop_one (t : List Char) :
    (t.drop 1).dropLast = t.dropLast.drop 1 := by
  cases t with
  | nil => rfl
  | cons b t' =>
    cases t' with
    | nil => rfl
    | cons c r => simp

theorem runMatchesEmail_tail {a : Char} {t : List Char}
    (h : runMatchesEmail (a :: t) = false) : runMatchesEmail t = false := by
  by_contra hc
  rw [Bool.not_eq_false] at hc
  have hmem : '@' ∈ (t.drop 1).dropLast := by
    unfold runMatchesEmail at hc
    simpa using hc
  rw [dropLast_drop_one] at hmem
  have hmem2 : '@' ∈ t.dropLast := List.mem_of_mem_drop hmem
  have hmem3 : '@' ∈ ((a :: t).drop 1).dropLast := by
    rw [show (a :: t).drop 1 = t by simp]
    exact hmem2
  unfold runMatchesEmail at h
  have hcontains : ((a :: t).drop 1).dropLast.contains '@' = true := by
    simpa using hmem3
  rw [h] at hcontains
  exact Bool.false_ne_true hcontains

theorem runMatchesEmail_mid (a c : Char) (t : List Char) :
    runMatchesEmail (a :: '@' :: c :: t) = true := by
  unfold runMatchesEmail
  have : '@' ∈ ((a :: '@' :: c :: t).drop 1).dropLast := by
    rw [show (a :: '@' :: c :: t).drop 1 = '@' :: c :: t by simp]
    rw [show ('@' :: c :: t).dropLast = '@' :: (c :: t).dropLast by
      cases t <;> simp]
    exact List.mem_cons_self _ _
  simp [this]

theorem runMatches_triple {run : List Char}
    (hns : ∀ a ∈ run, isSpaceP a = false)
    (hm : runMatchesEmail run = true) :
    ∃ x y, isSpaceP x = false ∧ isSpaceP y = false ∧ [x, '@', y] <:+: run := by
  unfold runMatchesEmail at hm
  have hmem : '@' ∈ (run.drop 1).dropLast := by simpa using hm
  obtain ⟨p, s, hps⟩ := List.append_of_mem hmem
  have hd1ne : run.drop 1 ≠ [] := by
    intro h
    rw [h] at hps
    simp at hps
  have hrunne : run ≠ [] := by
    intro h
    rw [h] at hd1ne
    simp at hd1ne
  have hd := List.dropLast_append_getLast hd1ne
  rw [hps] at hd
  obtain ⟨z, hz⟩ : ∃ z, run.drop 1 = p ++ '@' :: (s ++ [z]) := by
    refine ⟨(run.drop 1).getLast hd1ne, ?_⟩
    conv_lhs => rw [← hd]
    simp
  obtain ⟨r0, hr0⟩ : ∃ r0, run = r0 :: (p ++ '@' :: (s ++ [z])) := by
    refine ⟨run.head hrunne, ?_⟩
    conv_lhs => rw [← List.head_cons_tail run hrunne]
    rw [← List.drop_one, hz]
  obtain ⟨q, x, hqx⟩ : ∃ q x, r0 :: p = q ++ [x] :=
    ⟨(r0 :: p).dropLast, (r0 :: p).getLast (List.cons_ne_nil r0 p),
      (List.dropLast_append_getLast (List.cons_ne_nil r0 p)).symm⟩
  obtain ⟨y, t', hyt⟩ : ∃ y t', s ++ [z] = y :: t' := by
    cases s with
    | nil => exact ⟨z, [], rfl⟩
    | cons s0 s' => exact ⟨s0, s' ++ [z], rfl⟩
  have hrun2 : run = q ++ [x, '@', y] ++ t' := by
    rw [hr0]
    rw [show r0 :: (p ++ '@' :: (s ++ [z])) = (r0 :: p) ++ '@' :: (s ++ [z])
      from rfl]
    rw [hqx, hyt]
    simp
  refine ⟨x, y, ?_, ?_, q, t', hrun2.symm⟩
  · apply hns
    rw [hrun2]
    simp
  · apply hns
    rw [hrun2]
    simp

theorem runSafe_emailFree {run x : List Char}
    (hns : ∀ a ∈ run, isSpaceP a = false)
    (hm : runMatchesEmail run = false) (hx : emailFree x)
    (hshape : x = [] ∨ ∃ r0 r', x = r0 :: r' ∧ isSpaceP r0 = true) :
    emailFree (run ++ x) := by
  induction run with
  | nil => simpa using hx
  | cons a run' ih =>
    intro p q hp hq ht
    rw [List.cons_append] at ht
    rcases List.infix_cons_iff.mp ht with h | h
    · rw [List.cons_prefix_cons] at h
      obtain ⟨hpa, h2⟩ := h
      cases run' with
      | nil =>
        rw [List.nil_append] at h2
        rcases hshape with h3 | ⟨r0, r', h3, h4⟩
        · rw [h3] at h2
          have := h2.length_le
          simp at this
        · rw [h3, List.cons_prefix_cons] at h2
          have h5 : isSpaceP '@' = true := h2.1 ▸ h4
          exact absurd h5 (by decide)
      | cons b run'' =>
        rw [List.cons_append, List.cons_prefix_cons] at h2
        obtain ⟨hb, h3⟩ := h2
        cases run'' with
        | nil =>
          rw [List.nil_append] at h3
          rcases hshape with h4 | ⟨r0, r', h4, h5⟩
          · rw [h4] at h3
            have := h3.length_le
            simp at this
          · rw [h4, List.cons_prefix_cons] at h3
            have h6 : isSpaceP q = true := h3.1 ▸ h5
            rw [h6] at hq
            exact Bool.false_ne_true hq.symm
        | cons c run3 =>
          rw [← hb] at hm
          rw [runMatchesEmail_mid a c run3] at hm
          exact Bool.false_ne_true hm.symm
    · exact ih (fun b hb => hns b (List.mem_cons_of_mem a hb))
        (runMatchesEmail_tail hm) p q hp hq h

theorem subEmails_emailFree (l : List Char) : emailFree (subEmails l) := by
  induction l using subEmails_induction with
  | h0 => rw [subEmails_nil]; exact emailFree_nil
  | hsp c cs hs ih =>
    rw [subEmails_space_cons c cs hs]
    exact emailFree_cons_space hs ih
  | hrun c cs hs ih =>
    rw [subEmails_run_cons c cs hs]
    have hshape : subEmails ((c :: cs).dropWhile (fun x => !isSpaceP x)) = [] ∨
        ∃ r0 r', subEmails ((c :: cs).dropWhile (fun x => !isSpaceP x)) =
          r0 :: r' ∧ isSpaceP r0 = true := by
      cases hrest : (c :: cs).dropWhile (fun x => !isSpaceP x) with
      | nil => exact Or.inl subEmails_nil
      | cons r0 r' =>
        have hr0 : isSpaceP r0 = true := by
          have := dropWhile_head_false hrest
          simpa using this
        exact Or.inr ⟨r0, subEmails r', subEmails_space_cons r0 r' hr0, hr0⟩
    by_cases hm : runMatchesEmail ((c :: cs).takeWhile (fun x => !isSpaceP x))
    · rw [if_pos hm]
      refine emailFree_wordAppend (by decide) (by decide) ih
    · rw [if_neg hm]
      refine runSafe_emailFree ?_ (by simpa using hm) ih hshape
      intro a ha
      have := List.mem_takeWhile_imp ha
      simpa using this

theorem subDollarA_emailFree (l : List Char) :
    ∀ b, emailFree l → emailFree (subDollarA b l) := by
  induction l with
  | nil =>
    intro b _
    rw [show subDollarA b [] = [] by cases b <;> rfl]
    exact emailFree_nil
  | cons c cs ih =>
    intro b hl
    have hcs : emailFree cs := emailFree_suffix hl (List.suffix_cons c cs)
    by_cases hd : c = '$'
    · cases b with
      | true =>
        rw [show subDollarA true (c :: cs) = subDollarA true cs by
          simp [subDollarA, hd]]
        exact ih true hcs
      | false =>
        rw [show subDollarA false (c :: cs) =
            " dollar ".data ++ subDollarA true cs by
          simp [subDollarA, hd]]
        exact emailFree_wordAppend (by decide) (by decide) (ih true hcs)
    · rw [show subDollarA b (c :: cs) = c :: subDollarA false cs by
        simp [subDollarA, hd]]
      intro p q hp hq ht
      rcases List.infix_cons_iff.mp ht with h | h
      · rw [List.cons_prefix_cons] at h
        obtain ⟨hpc, h2⟩ := h
        cases cs with
        | nil =>
          rw [show subDollarA false [] = [] from rfl] at h2
          have := h2.length_le
          simp at this
        | cons d cs' =>
          by_cases hd2 : d = '$'
          · rw [show subDollarA false (d :: cs') =
                " dollar ".data ++ subDollarA true cs' by
              simp [subDollarA, hd2]] at h2
            rw [show (" dollar ".data ++ subDollarA true cs') =
                ' ' :: ("dollar ".data ++ subDollarA true cs') from rfl,
              List.cons_prefix_cons] at h2
            exact absurd h2.1 (by decide)
          · rw [show subDollarA false (d :: cs') = d :: subDollarA false cs' by
              simp [subDollarA, hd2]] at h2
            rw [List.cons_prefix_cons] at h2
            obtain ⟨hdd, h3⟩ := h2
            cases cs' with
            | nil =>
              rw [show subDollarA false [] = [] from rfl] at h3
              have := h3.length_le
              simp at this
            | cons e cs'' =>
              by_cases he : e = '$'
              · rw [show subDollarA false (e :: cs'') =
                    " dollar ".data ++ subDollarA true cs'' by
                  simp [subDollarA, he]] at h3
                rw [show (" dollar ".data ++ subDollarA true cs'') =
                    ' ' :: ("dollar ".data ++ subDollarA true cs'') from rfl,
                  List.cons_prefix_cons] at h3
                have hsq : isSpaceP q = true := by rw [h3.1]; decide
                rw [hsq] at hq
                exact Bool.false_ne_true hq.symm
              · rw [show subDollarA false (e :: cs'') = e :: subDollarA false cs'' by
                  simp [subDollarA, he]] at h3
                rw [List.cons_prefix_cons] at h3
                refine hl p q hp hq ?_
                refine ⟨[], cs'', ?_⟩
                rw [List.nil_append]
                rw [show ([p, '@', q] : List Char) ++ cs'' =
                  p :: '@' :: q :: cs'' from rfl]
                rw [hpc, ← hdd, h3.1]
      · exact ih false hcs p q hp hq h

theorem subEmails_id (l : List Char) : emailFree l → subEmails l = l := by
  induction l using subEmails_induction with
  | h0 => intro _; exact subEmails_nil
  | hsp c cs hs ih =>
    intro hl
    rw [subEmails_space_cons c cs hs,
      ih (emailFree_suffix hl (List.suffix_cons c cs))]
  | hrun c cs hs ih =>
    intro hl
    have hns : ∀ a ∈ (c :: cs).takeWhile (fun x => !isSpaceP x),
        isSpaceP a = false := by
      intro a ha
      have := List.mem_takeWhile_imp ha
      simpa using this
    have hm : runMatchesEmail ((c :: cs).takeWhile (fun x => !isSpaceP x)) =
        false := by
      by_contra hc
      rw [Bool.not_eq_false] at hc
      obtain ⟨x, y, hx, hy, hinf⟩ := runMatches_triple hns hc
      exact hl x y hx hy (hinf.trans (List.takeWhile_prefix _).isInfix)
    rw [subEmails_run_cons c cs hs,
      if_neg (by rw [hm]; exact Bool.false_ne_true),
      ih (emailFree_suffix hl (List.dropWhile_suffix _))]
    exact List.takeWhile_append_dropWhile _ _

/-! ### Digit-freeness is preserved by the later substitutions -/

theorem subUrlsA_digitFree {l : List Char} (hl : digitFree l) (b : Bool) :
    digitFree (subUrlsA b l) := by
  intro c hc
  rcases subUrlsA_chars l b c hc with h | h
  · exact hl c h
  · exact (by decide : ∀ c ∈ " httpaddr ".data, isDigitP c = false) c h

theorem subEmails_digitFree {l : List Char} (hl : digitFree l) :
    digitFree (subEmails l) := by
  intro c hc
  rcases subEmails_chars l c hc with h | h
  · exact hl c h
  · exact (by decide : ∀ c ∈ " emailaddr ".data, isDigitP c = false) c h

theorem subDollarA_digitFree {l : List Char} (hl : digitFree l) (b : Bool) :
    digitFree (subDollarA b l) := by
  have hword : ∀ c ∈ " dollar ".data, isDigitP c = false := by decide
  induction l generalizing b with
  | nil =>
    intro c hc
    rw [show subDollarA b [] = [] by cases b <;> rfl] at hc
    exact absurd hc (List.not_mem_nil c)
  | cons a t ih =>
    have hat : digitFree t := fun c hc => hl c (List.mem_cons_of_mem a hc)
    intro c hc
    by_cases hd : a = '$'
    · cases b with
      | true =>
        rw [show subDollarA true (a :: t) = subDollarA true t by
          simp [subDollarA, hd]] at hc
        exact ih hat true c hc
      | false =>
        rw [show subDollarA false (a :: t) =
            " dollar ".data ++ subDollarA true t by
          simp [subDollarA, hd]] at hc
        rcases List.mem_append.mp hc with h | h
        · exact hword c h
        · exact ih hat true c h
    · rw [show subDollarA b (a :: t) = a :: subDollarA false t by
        simp [subDollarA, hd]] at hc
      rcases List.mem_cons.mp hc with h | h
      · exact h ▸ hl a (List.mem_cons_self a t)
      · exact ih hat false c h

/-- C7: the placeholder-substitution stage (digits, then URLs, then e-mail
addresses, then dollar runs) is idempotent: its output contains no digit, no
`http(s)://` occurrence, no e-mail-shaped non-whitespace run and no dollar
sign, so a second application of the four substitutions — in particular on
the inserted placeholder words themselves — changes nothing. -/
theorem substitutePlaceholders_idempotent (l : List Char) :
    substitutePlaceholders (substitutePlaceholders l) =
      substitutePlaceholders l := by
  have hdigit : digitFree (substitutePlaceholders l) :=
    subDollarA_digitFree
      (subEmails_digitFree (subUrlsA_digitFree (subNumbersA_digitFree l false)
        false)) false
  have hurl : urlFree (substitutePlaceholders l) :=
    subDollarA_urlFree _ false
      (subEmails_urlFree _ (subUrlsA_urlFree (subNumbers l) false))
  have hemail : emailFree (substitutePlaceholders l) :=
    subDollarA_emailFree _ false (subEmails_emailFree _)
  have hdollar : dollarFree (substitutePlaceholders l) :=
    subDollarA_dollarFree _ false
  show subDollar (subEmails (subUrls (subNumbers (substitutePlaceholders l)))) = _
  rw [show subNumbers (substitutePlaceholders l) = substitutePlaceholders l
    from subNumbersA_id _ hdigit false]
  rw [show subUrls (substitutePlaceholders l) = substitutePlaceholders l
    from subUrlsA_id _ hurl]
  rw [subEmails_id _ hemail]
  exact subDollarA_id _ hdollar false

/-! ## Claim C4: tokens of `processMail` are nonempty, lowercase, alphanumeric -/

theorem subNumbersA_chars (l : List Char) :
    ∀ b c, c ∈ subNumbersA b l → c ∈ l ∨ c ∈ " number ".data := by
  induction l with
  | nil => intro b c hc; simp [subNumbersA] at hc
  | cons a t ih =>
    intro b c hc
    by_cases hd : isDigitP a
    · cases b with
      | true =>
        rw [show subNumbersA true (a :: t) = subNumbersA true t by
          simp [subNumbersA, hd]] at hc
        rcases ih true c hc with h | h
        · exact Or.inl (List.mem_cons_of_mem a h)
        · exact Or.inr h
      | false =>
        rw [show subNumbersA false (a :: t) =
            " number ".data ++ subNumbersA true t by
          simp [subNumbersA, hd]] at hc
        rcases List.mem_append.mp hc with h | h
        · exact Or.inr h
        · rcases ih true c h with h2 | h2
          · exact Or.inl (List.mem_cons_of_mem a h2)
          · exact Or.inr h2
    · rw [show subNumbersA b (a :: t) = a :: subNumbersA false t by
        simp [subNumbersA, hd]] at hc
      rcases List.mem_cons.mp hc with h | h
      · exact Or.inl (h ▸ List.mem_cons_self a t)
      · rcases ih false c h with h2 | h2
        · exact Or.inl (List.mem_cons_of_mem a h2)
        · exact Or.inr h2

theorem subDollarA_chars (l : List Char) :
    ∀ b c, c ∈ subDollarA b l → c ∈ l ∨ c ∈ " dollar ".data := by
  induction l with
  | nil => intro b c hc; simp [subDollarA] at hc
  | cons a t ih =>
    intro b c hc
    by_cases hd : a = '$'
    · cases b with
      | true =>
        rw [show subDollarA true (a :: t) = subDollarA true t by
          simp [subDollarA, hd]] at hc
        rcases ih true c hc with h | h
        · exact Or.inl (List.mem_cons_of_mem a h)
        · exact Or.inr h
      | false =>
        rw [show subDollarA false (a :: t) =
            " dollar ".data ++ subDollarA true t by
          simp [subDollarA, hd]] at hc
        rcases List.mem_append.mp hc with h | h
        · exact Or.inr h
        · rcases ih true c h with h2 | h2
          · exact Or.inl (List.mem_cons_of_mem a h2)
          · exact Or.inr h2
    · rw [show subDollarA b (a :: t) = a :: subDollarA false t by
        simp [subDollarA, hd]] at hc
      rcases List.mem_cons.mp hc with h | h
      · exact Or.inl (h ▸ List.mem_cons_self a t)
      · rcases ih false c h with h2 | h2
        · exact Or.inl (List.mem_cons_of_mem a h2)
        · exact Or.inr h2

theorem stripHtml_chars (l : List Char) :
    ∀ c ∈ stripHtml l, c ∈ l ∨ c = ' ' := by
  have key : ∀ (l : List Char),
      (∀ c ∈ (l.foldr stripHtmlStep ([], [], none)).1, c ∈ l) ∧
      (∀ c ∈ (l.foldr stripHtmlStep ([], [], none)).2.1, c ∈ l ∨ c = ' ') ∧
      (∀ o, (l.foldr stripHtmlStep ([], [], none)).2.2 = some o →
        ∀ c ∈ o, c ∈ l ∨ c = ' ') := by
    intro l
    induction l with
    | nil => refine ⟨by simp, by simp, by simp⟩
    | cons a t ih =>
      obtain ⟨ih1, ih2, ih3⟩ := ih
      rw [List.foldr_cons]
      by_cases ha : a = '<'
      · cases ho : (t.foldr stripHtmlStep ([], [], none)).2.2 with
        | some o =>
          cases hr : (t.foldr stripHtmlStep ([], [], none)).1 with
          | nil =>
            have heq : stripHtmlStep a (t.foldr stripHtmlStep ([], [], none)) =
                ([], '<' :: (t.foldr stripHtmlStep ([], [], none)).2.1, none) := by
              rw [stripHtmlStep, if_pos ha, ho, hr]
            rw [heq]
            refine ⟨by simp, ?_, by simp⟩
            intro c hc
            rcases List.mem_cons.mp hc with h | h
            · exact Or.inl (h ▸ (ha ▸ List.mem_cons_self a t))
            · rcases ih2 c h with h2 | h2
              · exact Or.inl (List.mem_cons_of_mem a h2)
              · exact Or.inr h2
          | cons r0 rt =>
            have heq : stripHtmlStep a (t.foldr stripHtmlStep ([], [], none)) =
                ([], ' ' :: o, none) := by
              rw [stripHtmlStep, if_pos ha, ho, hr]
            rw [heq]
            refine ⟨by simp, ?_, by simp⟩
            intro c hc
            rcases List.mem_cons.mp hc with h | h
            · exact Or.inr h
            · rcases ih3 o ho c h with h2 | h2
              · exact Or.inl (List.mem_cons_of_mem a h2)
              · exact Or.inr h2
        | none =>
          have heq : stripHtmlStep a (t.foldr stripHtmlStep ([], [], none)) =
              ([], '<' :: (t.foldr stripHtmlStep ([], [], none)).2.1, none) := by
            rw [stripHtmlStep, if_pos ha, ho]
          rw [heq]
          refine ⟨by simp, ?_, by simp⟩
          intro c hc
          rcases List.mem_cons.mp hc with h | h
          · exact Or.inl (h ▸ (ha ▸ List.mem_cons_self a t))
          · rcases ih2 c h with h2 | h2
            · exact Or.inl (List.mem_cons_of_mem a h2)
            · exact Or.inr h2
      · by_cases hb : a = '>'
        · have heq : stripHtmlStep a (t.foldr stripHtmlStep ([], [], none)) =
              ([], '>' :: (t.foldr stripHtmlStep ([], [], none)).2.1,
               some ((t.foldr stripHtmlStep ([], [], none)).2.1)) := by
            rw [stripHtmlStep, if_neg ha, if_pos hb]
          rw [heq]
          refine ⟨by simp, ?_, ?_⟩
          · intro c hc
            rcases List.mem_cons.mp hc with h | h
            · exact Or.inl (h ▸ (hb ▸ List.mem_cons_self a t))
            · rcases ih2 c h with h2 | h2
              · exact Or.inl (List.mem_cons_of_mem a h2)
              · exact Or.inr h2
          · intro o ho c hc
            cases ho
            rcases ih2 c hc with h2 | h2
            · exact Or.inl (List.mem_cons_of_mem a h2)
            · exact Or.inr h2
        · have heq : stripHtmlStep a (t.foldr stripHtmlStep ([], [], none)) =
              (a :: (t.foldr stripHtmlStep ([], [], none)).1,
               a :: (t.foldr stripHtmlStep ([], [], none)).2.1,
               (t.foldr stripHtmlStep ([], [], none)).2.2) := by
            rw [stripHtmlStep, if_neg ha, if_neg hb]
          rw [heq]
          refine ⟨?_, ?_, ?_⟩
          · intro c hc
            rcases List.mem_cons.mp hc with h | h
            · exact h ▸ List.mem_cons_self a t
            · exact List.mem_cons_of_mem a (ih1 c h)
          · intro c hc
            rcases List.mem_cons.mp hc with h | h
            · exact Or.inl (h ▸ List.mem_cons_self a t)
            · rcases ih2 c h with h2 | h2
              · exact Or.inl (List.mem_cons_of_mem a h2)
              · exact Or.inr h2
          · intro o ho c hc
            rcases ih3 o ho c hc with h2 | h2
            · exact Or.inl (List.mem_cons_of_mem a h2)
            · exact Or.inr h2
  exact fun c hc => (key l).2.1 c hc

theorem toLower_not_upper (c : Char) : isUpperA (Char.toLower c) = false := by
  by_cases hup : 65 ≤ c.toNat ∧ c.toNat ≤ 90
  · obtain ⟨h1, h2⟩ := hup
    have hc := Char.ofNat_toNat c
    interval_cases h : c.toNat <;> rw [← hc] <;> decide
  · have hid : Char.toLower c = c := by
      unfold Char.toLower
      rw [if_neg]
      intro hcon
      exact hup ⟨hcon.1, hcon.2⟩
    rw [hid]
    by_contra hcon
    rw [Bool.not_eq_false] at hcon
    unfold isUpperA at hcon
    rw [Bool.and_eq_true, decide_eq_true_eq, decide_eq_true_eq] at hcon
    exact hup ⟨hcon.1, hcon.2⟩

theorem upperFree_map_toLower (l : List Char) :
    upperFree (l.map Char.toLower) := by
  intro c hc
  obtain ⟨a, _, rfl⟩ := List.mem_map.mp hc
  exact toLower_not_upper a

theorem upperFree_stripHtml {l : List Char} (hl : upperFree l) :
    upperFree (stripHtml l) := by
  intro c hc
  rcases stripHtml_chars l c hc with h | h
  · exact hl c h
  · rw [h]; decide

theorem upperFree_substitutePlaceholders {l : List Char} (hl : upperFree l) :
    upperFree (substitutePlaceholders l) := by
  have h1 : upperFree (subNumbers l) := by
    intro c hc
    rcases subNumbersA_chars l false c hc with h | h
    · exact hl c h
    · exact (by decide : ∀ c ∈ " number ".data, isUpperA c = false) c h
  have h2 : upperFree (subUrls (subNumbers l)) := by
    intro c hc
    rcases subUrlsA_chars (subNumbers l) false c hc with h | h
    · exact h1 c h
    · exact (by decide : ∀ c ∈ " httpaddr ".data, isUpperA c = false) c h
  have h3 : upperFree (subEmails (subUrls (subNumbers l))) := by
    intro c hc
    rcases subEmails_chars (subUrls (subNumbers l)) c hc with h | h
    · exact h2 c h
    · exact (by decide : ∀ c ∈ " emailaddr ".data, isUpperA c = false) c h
  intro c hc
  rcases subDollarA_chars (subEmails (subUrls (subNumbers l))) false c hc with h | h
  · exact h3 c h
  · exact (by decide : ∀ c ∈ " dollar ".data, isUpperA c = false) c h

theorem mem_pyStrip {l : List Char} {c : Char} (hc : c ∈ pyStrip l) : c ∈ l := by
  unfold pyStrip at hc
  rw [List.mem_reverse] at hc
  have h1 := (List.dropWhile_suffix isSpaceP).subset hc
  rw [List.mem_reverse] at h1
  exact (List.dropWhile_suffix isSpaceP).subset h1

theorem cleanWord_alnum {w : List Char} {c : Char} (hc : c ∈ cleanWord w) :
    isAlnumP c = true ∧ c ∈ w := by
  unfold cleanWord at hc
  have h1 := mem_pyStrip hc
  rw [List.mem_filter] at h1
  exact ⟨h1.2, h1.1⟩

theorem mem_splitOnP_subset {p : Char → Bool} {l w : List Char}
    (hw : w ∈ l.splitOnP p) : ∀ c ∈ w, c ∈ l := by
  induction l generalizing w with
  | nil =>
    rw [List.splitOnP_nil] at hw
    rcases List.mem_cons.mp hw with h | h
    · intro c hc
      rw [h] at hc
      exact absurd hc (List.not_mem_nil c)
    · exact absurd h (List.not_mem_nil w)
  | cons x xs ih =>
    rw [List.splitOnP_cons] at hw
    by_cases hp : p x
    · rw [if_pos hp] at hw
      rcases List.mem_cons.mp hw with h | h
      · intro c hc
        rw [h] at hc
        exact absurd hc (List.not_mem_nil c)
      · exact fun c hc => List.mem_cons_of_mem x (ih h c hc)
    · rw [if_neg hp] at hw
      cases hsp : xs.splitOnP p with
      | nil => exact absurd hsp (List.splitOnP_ne_nil p xs)
      | cons h0 t0 =>
        rw [hsp] at hw
        rw [show (h0 :: t0).modifyHead (List.cons x) = (x :: h0) :: t0 from rfl]
          at hw
        rcases List.mem_cons.mp hw with h | h
        · intro c hc
          rw [h] at hc
          rcases List.mem_cons.mp hc with h2 | h2
          · exact h2 ▸ List.mem_cons_self x xs
          · refine List.mem_cons_of_mem x (ih ?_ c h2)
            rw [hsp]
            exact List.mem_cons_self h0 t0
        · refine fun c hc => List.mem_cons_of_mem x (ih ?_ c hc)
          rw [hsp]
          exact List.mem_cons_of_mem h0 h

/-- C4: for every raw input text and any stemmer that sends a nonempty
lowercase-alphanumeric word to a nonempty lowercase-alphanumeric stem (as
the Porter stemmer does), every token produced by `processMail` is nonempty
and consists only of lowercase ASCII letters and digits; in particular no
zero-length stem appears in the output. -/
theorem processMail_tokens (stem : List Char → List Char)
    (hstem : ∀ w, w ≠ [] → (∀ c ∈ w, isLowerAlnum c = true) →
      stem w ≠ [] ∧ ∀ c ∈ stem w, isLowerAlnum c = true)
    (mail : List Char) :
    ∀ t ∈ processMail stem mail, t ≠ [] ∧ ∀ c ∈ t, isLowerAlnum c = true := by
  intro t ht
  unfold processMail at ht
  rw [List.mem_filterMap] at ht
  obtain ⟨w, hw, hwt⟩ := ht
  by_cases hemp : w.isEmpty
  · rw [if_pos hemp] at hwt
    exact absurd hwt (by simp)
  · rw [if_neg hemp] at hwt
    have hwne : w ≠ [] := by
      intro h
      rw [h] at hemp
      exact hemp rfl
    obtain ⟨w0, hw0, hww0⟩ := List.mem_map.mp hw
    have hupper : upperFree (substitutePlaceholders
        (stripHtml ((headerStrip mail).map Char.toLower))) :=
      upperFree_substitutePlaceholders
        (upperFree_stripHtml (upperFree_map_toLower (headerStrip mail)))
    have hchars : ∀ c ∈ w, isLowerAlnum c = true := by
      intro c hc
      rw [← hww0] at hc
      obtain ⟨halnum, hcw0⟩ := cleanWord_alnum hc
      have hcm : c ∈ substitutePlaceholders
          (stripHtml ((headerStrip mail).map Char.toLower)) :=
        mem_splitOnP_subset hw0 c hcw0
      have hnotup : isUpperA c = false := hupper c hcm
      unfold isAlnumP at halnum
      unfold isLowerAlnum
      rw [hnotup] at halnum
      simpa using halnum
    obtain ⟨hne, hlow⟩ := hstem w hwne hchars
    have hts : stem w = t := Option.some.inj hwt
    rw [← hts]
    exact ⟨hne, hlow⟩

/-- C4 (witness): the token property evaluated with the identity stemmer on
a concrete mail. -/
theorem processMail_tokens_witness :
    processMail id "H: v\n\nBuy NOW!! 99 c<b>heap</b>".data =
      ["buy".data, "now".data, "number".data, "c".data, "heap".data] ∧
    (∀ t ∈ processMail id "H: v\n\nBuy NOW!! 99 c<b>heap</b>".data,
      t ≠ [] ∧ ∀ c ∈ t, isLowerAlnum c = true) := by
  constructor
  · decide
  · exact processMail_tokens id
      (fun w hne hlow => ⟨by simpa using hne, by simpa using hlow⟩)
      "H: v\n\nBuy NOW!! 99 c<b>heap</b>".data

/-- C3 (witness): the amended delimiter facts evaluated at concrete
characters — the digit `'5'` is a delimiter, and the hyphen's membership
matches `isDelimP`. -/
theorem splitMail_amended_witness :
    '5' ∈ actualDelims ∧ (isDelimP '-' = true ↔ '-' ∈ actualDelims) :=
  ⟨splitMail_amended.2.2.2.2 '5' (by decide), splitMail_amended.1 '-'⟩

/-! ## Claim C5: the feature matrix -/

theorem getD_set_self {α : Type} (l : List α) (i : Nat) (a d : α)
    (h : i < l.length) : (l.set i a).getD i d = a := by
  induction l generalizing i with
  | nil => simp at h
  | cons x xs ih =>
    cases i with
    | zero => rfl
    | succ i =>
      simp only [List.set_cons_succ, List.getD_cons_succ]
      exact ih i (by simpa using h)

theorem getD_set_ne {α : Type} (l : List α) (i j : Nat) (a d : α)
    (h : i ≠ j) : (l.set i a).getD j d = l.getD j d := by
  induction l generalizing i j with
  | nil => simp [List.set_nil]
  | cons x xs ih =>
    cases i with
    | zero =>
      cases j with
      | zero => exact absurd rfl h
      | succ j => rfl
    | succ i =>
      cases j with
      | zero => rfl
      | succ j =>
        simp only [List.set_cons_succ, List.getD_cons_succ]
        exact ih i j (fun hc => h (by rw [hc]))

theorem set_getD_self {α : Type} (l : List α) (i : Nat) (d : α)
    (h : i < l.length) : l.set i (l.getD i d) = l := by
  induction l generalizing i with
  | nil => simp at h
  | cons x xs ih =>
    cases i with
    | zero => rfl
    | succ i =>
      simp only [List.set_cons_succ, List.getD_cons_succ]
      rw [ih i (by simpa using h)]

theorem take_set_succ {α : Type} (l : List α) (k : Nat) (v : α)
    (h : k < l.length) : (l.set k v).take (k + 1) = l.take k ++ [v] := by
  induction l generalizing k with
  | nil => simp at h
  | cons x xs ih =>
    cases k with
    | zero => rfl
    | succ k =>
      simp only [List.set_cons_succ, List.take_succ_cons, List.cons_append]
      rw [ih k (by simpa using h)]

theorem getD_map_lt {α β : Type} (l : List α) (f : α → β) (i : Nat)
    (d : β) (d' : α) (h : i < l.length) :
    (l.map f).getD i d = f (l.getD i d') := by
  induction l generalizing i with
  | nil => simp at h
  | cons x xs ih =>
    cases i with
    | zero => rfl
    | succ i =>
      simp only [List.map_cons, List.getD_cons_succ]
      exact ih i (by simpa using h)

theorem innerFold_matrix (mail : List (List Char)) (ps : List (Nat × List Char))
    (i : Nat) :
    ∀ (X : List (List Nat)), i < X.length →
    ps.foldl (fun X jw =>
      X.set i ((X.getD i []).set jw.1 (if jw.2 ∈ mail then 1 else 0))) X =
    X.set i (ps.foldl (fun r jw =>
      r.set jw.1 (if jw.2 ∈ mail then 1 else 0)) (X.getD i [])) := by
  induction ps with
  | nil =>
    intro X hi
    simp only [List.foldl_nil]
    rw [set_getD_self X i [] hi]
  | cons p ps ih =>
    intro X hi
    simp only [List.foldl_cons]
    rw [ih (X.set i ((X.getD i []).set p.1 (if p.2 ∈ mail then 1 else 0)))
      (by rw [List.length_set]; exact hi)]
    rw [getD_set_self X i _ [] hi, List.set_set]

theorem rowFold_enumFrom (mail : List (List Char)) (vs : List (List Char)) :
    ∀ (k : Nat) (row : List Nat), row.length = k + vs.length →
    (List.enumFrom k vs).foldl (fun r jw =>
      r.set jw.1 (if jw.2 ∈ mail then 1 else 0)) row =
    row.take k ++ vs.map (fun w => if w ∈ mail then 1 else 0) := by
  induction vs with
  | nil =>
    intro k row hlen
    simp only [List.length_nil] at hlen
    simp only [List.enumFrom, List.foldl_nil, List.map_nil, List.append_nil]
    rw [show k = row.length by omega, List.take_length]
  | cons v vs ih =>
    intro k row hlen
    rw [show List.enumFrom k (v :: vs) = (k, v) :: List.enumFrom (k + 1) vs
      from rfl]
    simp only [List.foldl_cons]
    rw [ih (k + 1) (row.set k (if v ∈ mail then 1 else 0))
      (by rw [List.length_set]; simp only [List.length_cons] at hlen; omega)]
    rw [take_set_succ row k _ (by simp only [List.length_cons] at hlen; omega)]
    simp

theorem rowFold_enum (mail : List (List Char)) (vocab : List (List Char))
    (row : List Nat) (hlen : row.length = vocab.length) :
    vocab.enum.foldl (fun r jw =>
      r.set jw.1 (if jw.2 ∈ mail then 1 else 0)) row =
    vocab.map (fun w => if w ∈ mail then 1 else 0) := by
  rw [show vocab.enum = List.enumFrom 0 vocab from rfl]
  rw [rowFold_enumFrom mail vocab 0 row (by omega)]
  simp

theorem outerFold_enumFrom (vocab : List (List Char))
    (ms : List (List (List Char))) :
    ∀ (k : Nat) (X : List (List Nat)), X.length = k + ms.length →
    (∀ i, k ≤ i → i < X.length → X.getD i [] = List.replicate vocab.length 0) →
    (List.enumFrom k ms).foldl (fun X im =>
      vocab.enum.foldl (fun X jw =>
        X.set im.1 ((X.getD im.1 []).set jw.1 (if jw.2 ∈ im.2 then 1 else 0)))
        X) X =
    X.take k ++ ms.map (fun mail =>
      vocab.map (fun w => if w ∈ mail then 1 else 0)) := by
  induction ms with
  | nil =>
    intro k X hlen _
    simp only [List.length_nil] at hlen
    simp only [List.enumFrom, List.foldl_nil, List.map_nil, List.append_nil]
    rw [show k = X.length by omega, List.take_length]
  | cons mail ms ih =>
    intro k X hlen hrep
    rw [show List.enumFrom k (mail :: ms) =
      (k, mail) :: List.enumFrom (k + 1) ms from rfl]
    simp only [List.foldl_cons]
    have hkX : k < X.length := by
      simp only [List.length_cons] at hlen
      omega
    rw [innerFold_matrix mail vocab.enum k X hkX]
    rw [rowFold_enum mail vocab (X.getD k [])
      (by rw [hrep k le_rfl hkX, List.length_replicate])]
    rw [ih (k + 1) (X.set k (vocab.map (fun w => if w ∈ mail then 1 else 0)))
      (by rw [List.length_set]; simp only [List.length_cons] at hlen; omega)
      (by
        intro i hik hiX
        rw [List.length_set] at hiX
        rw [getD_set_ne X k i _ [] (by omega)]
        exact hrep i (by omega) hiX)]
    rw [take_set_succ X k _ hkX]
    simp

/-- The imperative fill of `np.zeros((m, n))` builds exactly the row-per-mail
membership matrix. -/
theorem getFeatureMatrix_eq_map (mails : List (List (List Char)))
    (vocab : List (List Char)) :
    getFeatureMatrix mails vocab =
      mails.map (fun mail => vocab.map (fun w => if w ∈ mail then 1 else 0)) := by
  unfold getFeatureMatrix
  rw [show mails.enum = List.enumFrom 0 mails from rfl]
  rw [outerFold_enumFrom vocab mails 0
    (List.replicate mails.length (List.replicate vocab.length 0))
    (by rw [List.length_replicate]; omega)
    (by
      intro i _ hiX
      rw [List.length_replicate] at hiX
      rw [List.getD_eq_getElem _ _ (by rwa [List.length_replicate])]
      simp)]
  rw [List.take_zero, List.nil_append]

/-- C5: for every corpus of tokenized messages and every vocabulary,
`getFeatureMatrix` has one row per message; row `i` has length exactly
`|vocab|`, its `j`-th entry is `1` iff the `j`-th vocabulary word occurs in
message `i` (else `0`), and an empty message yields an all-zero row. -/
theorem getFeatureMatrix_spec (mails : List (List (List Char)))
    (vocab : List (List Char)) :
    (getFeatureMatrix mails vocab).length = mails.length ∧
    ∀ i, i < mails.length →
      ((getFeatureMatrix mails vocab).getD i []).length = vocab.length ∧
      (∀ j, j < vocab.length →
        ((getFeatureMatrix mails vocab).getD i []).getD j 0 =
          if vocab.getD j [] ∈ mails.getD i [] then 1 else 0) ∧
      (mails.getD i [] = [] →
        (getFeatureMatrix mails vocab).getD i [] =
          List.replicate vocab.length 0) := by
  rw [getFeatureMatrix_eq_map]
  refine ⟨List.length_map _ _, ?_⟩
  intro i hi
  rw [getD_map_lt mails _ i [] [] hi]
  refine ⟨List.length_map _ _, ?_, ?_⟩
  · intro j hj
    rw [getD_map_lt vocab _ j 0 [] hj]
  · intro hempty
    rw [hempty]
    have : (fun w : List Char => if w ∈ ([] : List (List Char)) then 1 else 0) =
        Function.const (List Char) 0 := by
      funext w
      simp
    rw [this, List.map_const]

/-- C5 (witness): the row specification evaluated on a concrete corpus and
vocabulary. -/
theorem getFeatureMatrix_spec_witness :
    ((getFeatureMatrix [["a".data], []] ["a".data, "b".data]).getD 0 []).getD 0 0
      = 1 ∧
    (getFeatureMatrix [["a".data], []] ["a".data, "b".data]).getD 1 [] =
      [0, 0] := by
  have h := getFeatureMatrix_spec [["a".data], []] ["a".data, "b".data]
  constructor
  · have h2 := (h.2 0 (by decide)).2.1 0 (by decide)
    rw [h2]
    decide
  · have h3 := (h.2 1 (by decide)).2.2 (by decide)
    rw [h3]
    decide

/-! ## Claims C6 and C10: vocabulary construction -/

theorem bumpWord_keys_of_mem {acc : List (List Char × Nat)} {w : List Char}
    (h : w ∈ acc.map Prod.fst) :
    (bumpWord acc w).map Prod.fst = acc.map Prod.fst := by
  have hany : acc.any (fun p => p.1 == w) = true := by
    rw [List.any_eq_true]
    obtain ⟨p, hp, hfst⟩ := List.mem_map.mp h
    exact ⟨p, hp, by rw [beq_iff_eq, hfst]⟩
  unfold bumpWord
  rw [if_pos hany, List.map_map]
  congr 1
  funext p
  by_cases hpw : p.1 = w
  · rw [Function.comp_apply, if_pos (by rw [beq_iff_eq]; exact hpw)]
  · rw [Function.comp_apply, if_neg (by rw [beq_iff_eq]; exact hpw)]

theorem bumpWord_keys_of_not_mem {acc : List (List Char × Nat)} {w : List Char}
    (h : w ∉ acc.map Prod.fst) :
    (bumpWord acc w).map Prod.fst = acc.map Prod.fst ++ [w] := by
  have hany : acc.any (fun p => p.1 == w) = false := by
    rw [Bool.eq_false_iff]
    intro hc
    rw [List.any_eq_true] at hc
    obtain ⟨p, hp, hfst⟩ := hc
    rw [beq_iff_eq] at hfst
    exact h (List.mem_map.mpr ⟨p, hp, hfst⟩)
  unfold bumpWord
  rw [if_neg (by rw [hany]; exact Bool.false_ne_true)]
  simp

theorem bumpFold_inv (l : List (List Char)) :
    ∀ (acc : List (List Char × Nat)) (processed : List (List Char)),
    (acc.map Prod.fst).Nodup →
    (∀ p ∈ acc, p.2 = processed.count p.1) →
    (∀ w, w ∈ acc.map Prod.fst ↔ w ∈ processed) →
    ((l.foldl bumpWord acc).map Prod.fst).Nodup ∧
    (∀ p ∈ l.foldl bumpWord acc, p.2 = (processed ++ l).count p.1) ∧
    (∀ w, w ∈ (l.foldl bumpWord acc).map Prod.fst ↔ w ∈ processed ++ l) := by
  induction l with
  | nil =>
    intro acc processed h1 h2 h3
    simp only [List.foldl_nil, List.append_nil]
    exact ⟨h1, h2, h3⟩
  | cons w ws ih =>
    intro acc processed h1 h2 h3
    simp only [List.foldl_cons]
    have key : ((bumpWord acc w).map Prod.fst).Nodup ∧
        (∀ p ∈ bumpWord acc w, p.2 = (processed ++ [w]).count p.1) ∧
        (∀ x, x ∈ (bumpWord acc w).map Prod.fst ↔ x ∈ processed ++ [w]) := by
      by_cases hw : w ∈ acc.map Prod.fst
      · rw [bumpWord_keys_of_mem hw]
        refine ⟨h1, ?_, ?_⟩
        · intro p hp
          have hany : acc.any (fun q => q.1 == w) = true := by
            rw [List.any_eq_true]
            obtain ⟨q, hq, hfst⟩ := List.mem_map.mp hw
            exact ⟨q, hq, by rw [beq_iff_eq, hfst]⟩
          unfold bumpWord at hp
          rw [if_pos hany] at hp
          obtain ⟨q, hq, hqp⟩ := List.mem_map.mp hp
          by_cases hqw : q.1 = w
          · rw [if_pos (by rw [beq_iff_eq]; exact hqw)] at hqp
            rw [← hqp]
            rw [h2 q hq, List.count_append, List.count_singleton]
            rw [if_pos (by rw [beq_iff_eq]; exact hqw.symm)]
          · rw [if_neg (by rw [beq_iff_eq]; exact hqw)] at hqp
            rw [← hqp, h2 q hq, List.count_append, List.count_singleton]
            rw [if_neg (by
              rw [beq_iff_eq]
              exact fun hc => hqw hc.symm)]
            omega
        · intro x
          rw [h3 x, List.mem_append, List.mem_singleton]
          constructor
          · exact Or.inl
          · rintro (h | h)
            · exact h
            · rw [h]
              exact (h3 w).mp hw
      · rw [bumpWord_keys_of_not_mem hw]
        have hwnp : w ∉ processed := fun hc => hw ((h3 w).mpr hc)
        refine ⟨?_, ?_, ?_⟩
        · rw [List.nodup_append]
          exact ⟨h1, List.nodup_singleton w,
            fun x hx hx2 => hw ((List.mem_singleton.mp hx2) ▸ hx)⟩
        · intro p hp
          have hany : acc.any (fun q => q.1 == w) = false := by
            rw [Bool.eq_false_iff]
            intro hc
            rw [List.any_eq_true] at hc
            obtain ⟨q, hq, hfst⟩ := hc
            rw [beq_iff_eq] at hfst
            exact hw (List.mem_map.mpr ⟨q, hq, hfst⟩)
          unfold bumpWord at hp
          rw [if_neg (by rw [hany]; exact Bool.false_ne_true)] at hp
          rcases List.mem_append.mp hp with h | h
          · have hp1 : p.1 ≠ w := by
              intro hc
              exact hw (List.mem_map.mpr ⟨p, h, hc⟩)
            rw [h2 p h, List.count_append, List.count_singleton,
              if_neg (by
                rw [beq_iff_eq]
                exact fun hc => hp1 hc.symm)]
            omega
          · rw [List.mem_singleton] at h
            rw [h]
            rw [List.count_append, List.count_singleton,
              if_pos (by rw [beq_iff_eq]),
              List.count_eq_zero.mpr hwnp]
        · intro x
          rw [List.mem_append, List.mem_singleton, h3 x, List.mem_append,
            List.mem_singleton]
    have hassoc : processed ++ w :: ws = (processed ++ [w]) ++ ws := by simp
    rw [hassoc]
    exact ih (bumpWord acc w) (processed ++ [w]) key.1 key.2.1 key.2.2

theorem countWords_inv (mails : List (List (List Char))) :
    ((countWords mails).map Prod.fst).Nodup ∧
    (∀ p ∈ countWords mails, p.2 = (mails.flatten).count p.1) ∧
    (∀ w, w ∈ (countWords mails).map Prod.fst ↔ w ∈ mails.flatten) := by
  have h := bumpFold_inv (mails.flatten) [] [] (by simp) (by simp) (by simp)
  simpa using h

theorem insertDesc_length (x : List Char × Nat) (l : List (List Char × Nat)) :
    (insertDesc x l).length = l.length + 1 := by
  induction l with
  | nil => rfl
  | cons y ys ih =>
    unfold insertDesc
    by_cases h : y.2 < x.2
    · rw [if_pos h]
      simp
    · rw [if_neg h]
      simp only [List.length_cons, ih]

theorem insertDesc_mem (x p : List Char × Nat) (l : List (List Char × Nat)) :
    p ∈ insertDesc x l ↔ p = x ∨ p ∈ l := by
  induction l with
  | nil => simp [insertDesc]
  | cons y ys ih =>
    unfold insertDesc
    by_cases h : y.2 < x.2
    · rw [if_pos h]
      simp [List.mem_cons]
    · rw [if_neg h]
      simp only [List.mem_cons, ih]
      tauto

theorem insertDesc_perm (x : List Char × Nat) (l : List (List Char × Nat)) :
    List.Perm (insertDesc x l) (x :: l) := by
  induction l with
  | nil => exact List.Perm.refl _
  | cons y ys ih =>
    unfold insertDesc
    by_cases h : y.2 < x.2
    · rw [if_pos h]
    · rw [if_neg h]
      exact (List.Perm.cons y ih).trans (List.Perm.swap x y ys)

theorem insertDesc_sorted {x : List Char × Nat} {l : List (List Char × Nat)}
    (hl : List.Pairwise (fun a b => b.2 ≤ a.2) l) :
    List.Pairwise (fun a b => b.2 ≤ a.2) (insertDesc x l) := by
  induction l with
  | nil => simp [insertDesc]
  | cons y ys ih =>
    rw [List.pairwise_cons] at hl
    unfold insertDesc
    by_cases h : y.2 < x.2
    · rw [if_pos h]
      rw [List.pairwise_cons]
      refine ⟨?_, List.pairwise_cons.mpr hl⟩
      intro z hz
      rcases List.mem_cons.mp hz with h2 | h2
      · rw [h2]; omega
      · have := hl.1 z h2
        omega
    · rw [if_neg h]
      rw [List.pairwise_cons]
      refine ⟨?_, ih hl.2⟩
      intro z hz
      rcases (insertDesc_mem x z ys).mp hz with h2 | h2
      · rw [h2]; omega
      · exact hl.1 z h2

theorem insertDesc_filter (x : List Char × Nat) (c : Nat)
    (l : List (List Char × Nat))
    (hl : List.Pairwise (fun a b => b.2 ≤ a.2) l) :
    (insertDesc x l).filter (fun p => p.2 == c) =
      if x.2 = c then l.filter (fun p => p.2 == c) ++ [x]
      else l.filter (fun p => p.2 == c) := by
  induction l with
  | nil =>
    by_cases hx : x.2 = c
    · rw [if_pos hx]
      simp [insertDesc, List.filter_cons, hx]
    · rw [if_neg hx]
      simp [insertDesc, List.filter_cons, hx]
  | cons y ys ih =>
    rw [List.pairwise_cons] at hl
    unfold insertDesc
    by_cases h : y.2 < x.2
    · rw [if_pos h]
      by_cases hx : x.2 = c
      · rw [if_pos hx]
        have hnone : (y :: ys).filter (fun p => p.2 == c) = [] := by
          rw [List.filter_eq_nil_iff]
          intro z hz
          have hz2 : z.2 ≤ y.2 := by
            rcases List.mem_cons.mp hz with h2 | h2
            · rw [h2]
            · exact hl.1 z h2
          simp only [beq_iff_eq]
          omega
        rw [List.filter_cons, if_pos (by rw [beq_iff_eq]; exact hx), hnone]
        rfl
      · rw [if_neg hx]
        rw [List.filter_cons, if_neg (by
          simp only [beq_iff_eq]
          exact hx)]
    · rw [if_neg h]
      by_cases hx : x.2 = c
      · rw [if_pos hx]
        rw [List.filter_cons, List.filter_cons, ih hl.2, if_pos hx]
        by_cases hy : y.2 = c
        · rw [if_pos (by rw [beq_iff_eq]; exact hy),
            if_pos (by rw [beq_iff_eq]; exact hy)]
          rfl
        · rw [if_neg (by rw [beq_iff_eq]; exact hy),
            if_neg (by rw [beq_iff_eq]; exact hy)]
      · rw [if_neg hx]
        rw [List.filter_cons, List.filter_cons, ih hl.2, if_neg hx]

theorem sortAux_facts (l : List (List Char × Nat)) :
    ∀ (acc : List (List Char × Nat)),
    List.Pairwise (fun a b => b.2 ≤ a.2) acc →
    List.Pairwise (fun a b => b.2 ≤ a.2)
      (l.foldl (fun acc x => insertDesc x acc) acc) ∧
    List.Perm (l.foldl (fun acc x => insertDesc x acc) acc) (acc ++ l) ∧
    (∀ c, (l.foldl (fun acc x => insertDesc x acc) acc).filter
        (fun p => p.2 == c) =
      acc.filter (fun p => p.2 == c) ++ l.filter (fun p => p.2 == c)) := by
  induction l with
  | nil =>
    intro acc hacc
    simp only [List.foldl_nil, List.append_nil, List.filter_nil]
    exact ⟨hacc, List.Perm.refl _, fun c => by simp⟩
  | cons x xs ih =>
    intro acc hacc
    simp only [List.foldl_cons]
    obtain ⟨hs, hp, hf⟩ := ih (insertDesc x acc) (insertDesc_sorted hacc)
    refine ⟨hs, ?_, ?_⟩
    · refine hp.trans ?_
      refine (List.Perm.append_right xs (insertDesc_perm x acc)).trans ?_
      rw [show x :: acc ++ xs = x :: (acc ++ xs) from rfl]
      rw [show acc ++ x :: xs = acc ++ [x] ++ xs by simp]
      refine List.Perm.symm ?_
      rw [List.append_assoc]
      exact List.perm_middle
    · intro c
      rw [hf c, insertDesc_filter x c acc hacc, List.filter_cons]
      by_cases hx : x.2 = c
      · rw [if_pos hx, if_pos (by rw [beq_iff_eq]; exact hx)]
        simp
      · rw [if_neg hx, if_neg (by simp only [beq_iff_eq]; exact hx)]

theorem sortDescByCount_facts (l : List (List Char × Nat)) :
    List.Pairwise (fun a b => b.2 ≤ a.2) (sortDescByCount l) ∧
    List.Perm (sortDescByCount l) l ∧
    (∀ c, (sortDescByCount l).filter (fun p => p.2 == c) =
      l.filter (fun p => p.2 == c)) := by
  have h := sortAux_facts l [] (by simp)
  refine ⟨h.1, by simpa using h.2.1, fun c => by simpa using h.2.2 c⟩

theorem idx_cons_self (a : List Char) (l : List (List Char)) :
    List.indexOf a (a :: l) = 0 := by
  rw [List.indexOf_cons]
  simp

theorem idx_cons_ne {a b : List Char} (l : List (List Char)) (h : b ≠ a) :
    List.indexOf a (b :: l) = List.indexOf a l + 1 := by
  rw [List.indexOf_cons]
  have hb : (b == a) = false := by
    rw [beq_eq_false_iff_ne]
    exact h
  rw [hb]
  rfl

theorem idx_cons_self_pair (a : List Char × Nat) (l : List (List Char × Nat)) :
    List.indexOf a (a :: l) = 0 := by
  rw [List.indexOf_cons]
  simp

theorem idx_cons_ne_pair {a b : List Char × Nat} (l : List (List Char × Nat))
    (h : b ≠ a) :
    List.indexOf a (b :: l) = List.indexOf a l + 1 := by
  rw [List.indexOf_cons]
  have hb : (b == a) = false := by
    rw [beq_eq_false_iff_ne]
    exact h
  rw [hb]
  rfl

theorem indexOf_append_of_mem {w : List Char} {A : List (List Char)}
    (B : List (List Char)) (h : w ∈ A) :
    (A ++ B).indexOf w = A.indexOf w := by
  induction A with
  | nil => exact absurd h (List.not_mem_nil w)
  | cons a A ih =>
    by_cases haw : a = w
    · rw [haw, List.cons_append, idx_cons_self, idx_cons_self]
    · rw [List.cons_append, idx_cons_ne _ haw, idx_cons_ne _ haw]
      have hw : w ∈ A := by
        rcases List.mem_cons.mp h with h2 | h2
        · exact absurd h2.symm haw
        · exact h2
      rw [ih hw]

theorem indexOf_append_of_not_mem {w : List Char} {A : List (List Char)}
    (B : List (List Char)) (h : w ∉ A) :
    (A ++ B).indexOf w = A.length + B.indexOf w := by
  induction A with
  | nil => simp
  | cons a A ih =>
    have haw : a ≠ w := fun hc => h (hc ▸ List.mem_cons_self a A)
    rw [List.cons_append, idx_cons_ne _ haw,
      ih (fun hc => h (List.mem_cons_of_mem a hc)), List.length_cons]
    omega

theorem filter_indexOf_lt_iff {p : (List Char × Nat) → Bool}
    {x y : List Char × Nat} (hx : p x = true) (hy : p y = true)
    (hxy : x ≠ y) (l : List (List Char × Nat)) :
    ((l.filter p).indexOf x < (l.filter p).indexOf y ↔
      l.indexOf x < l.indexOf y) := by
  induction l with
  | nil => simp
  | cons z l ih =>
    by_cases hzx : z = x
    · rw [hzx, List.filter_cons, if_pos hx, idx_cons_self_pair,
        idx_cons_self_pair, idx_cons_ne_pair _ hxy, idx_cons_ne_pair _ hxy]
      omega
    · by_cases hzy : z = y
      · rw [hzy, List.filter_cons, if_pos hy, idx_cons_self_pair,
          idx_cons_self_pair, idx_cons_ne_pair _ (fun hc => hxy hc.symm),
          idx_cons_ne_pair _ (fun hc => hxy hc.symm)]
        omega
      · rw [idx_cons_ne_pair _ hzx, idx_cons_ne_pair _ hzy]
        by_cases hpz : p z
        · rw [List.filter_cons, if_pos hpz, idx_cons_ne_pair _ hzx,
            idx_cons_ne_pair _ hzy]
          simp only [Nat.add_lt_add_iff_right]
          exact ih
        · rw [List.filter_cons, if_neg hpz, Nat.add_lt_add_iff_right]
          exact ih

theorem pair_indexOf_eq_key_indexOf (A : List (List Char × Nat))
    (w : List Char) (c : Nat) (hnd : (A.map Prod.fst).Nodup)
    (hmem : (w, c) ∈ A) :
    A.indexOf (w, c) = (A.map Prod.fst).indexOf w := by
  induction A with
  | nil => exact absurd hmem (List.not_mem_nil _)
  | cons q A ih =>
    rw [List.map_cons] at hnd ⊢
    rw [List.nodup_cons] at hnd
    by_cases hq : q = (w, c)
    · rw [hq, idx_cons_self_pair,
        show ((w, c) : List Char × Nat).1 = w from rfl, idx_cons_self]
    · have hmem2 : (w, c) ∈ A := by
        rcases List.mem_cons.mp hmem with h2 | h2
        · exact absurd h2.symm hq
        · exact h2
      have hq1 : q.1 ≠ w := by
        intro hc
        exact hnd.1 (hc ▸ List.mem_map.mpr ⟨(w, c), hmem2, rfl⟩)
      rw [idx_cons_ne_pair _ hq, idx_cons_ne _ hq1, ih hnd.2 hmem2]

theorem indexOf_take {x : List Char} {l : List (List Char)} :
    ∀ {K : Nat}, x ∈ l.take K → (l.take K).indexOf x = l.indexOf x := by
  induction l with
  | nil => intro K h; simp at h
  | cons z l ih =>
    intro K h
    cases K with
    | zero => simp at h
    | succ K =>
      rw [List.take_succ_cons] at h ⊢
      by_cases hzx : z = x
      · rw [hzx, idx_cons_self, idx_cons_self]
      · rw [idx_cons_ne _ hzx, idx_cons_ne _ hzx]
        have hx : x ∈ l.take K := by
          rcases List.mem_cons.mp h with h2 | h2
          · exact absurd h2.symm hzx
          · exact h2
        rw [ih hx]

theorem bumpFold_keys_growth (ws : List (List Char)) :
    ∀ (acc : List (List Char × Nat)), ∃ new,
      ((ws.foldl bumpWord acc).map Prod.fst = acc.map Prod.fst ++ new) ∧
      ∀ w ∈ new, w ∉ acc.map Prod.fst := by
  induction ws with
  | nil => exact fun acc => ⟨[], by simp, by simp⟩
  | cons w ws ih =>
    intro acc
    simp only [List.foldl_cons]
    by_cases hw : w ∈ acc.map Prod.fst
    · obtain ⟨new, hnew, hnotin⟩ := ih (bumpWord acc w)
      rw [bumpWord_keys_of_mem hw] at hnew hnotin
      exact ⟨new, hnew, hnotin⟩
    · obtain ⟨new, hnew, hnotin⟩ := ih (bumpWord acc w)
      rw [bumpWord_keys_of_not_mem hw] at hnew hnotin
      refine ⟨w :: new, by rw [hnew]; simp, ?_⟩
      intro x hx hxacc
      rcases List.mem_cons.mp hx with h2 | h2
      · exact hw (h2 ▸ hxacc)
      · exact hnotin x h2 (List.mem_append_left _ hxacc)

theorem bumpFold_mem_keys (ws : List (List Char)) :
    ∀ (acc : List (List Char × Nat)) (w : List Char), w ∈ ws →
      w ∈ (ws.foldl bumpWord acc).map Prod.fst := by
  induction ws with
  | nil => intro acc w h; exact absurd h (List.not_mem_nil w)
  | cons v ws ih =>
    intro acc w h
    simp only [List.foldl_cons]
    by_cases hvw : w = v
    · obtain ⟨new, hnew, _⟩ := bumpFold_keys_growth ws (bumpWord acc v)
      rw [hnew]
      apply List.mem_append_left
      by_cases hv : v ∈ acc.map Prod.fst
      · rw [bumpWord_keys_of_mem hv]
        exact hvw ▸ hv
      · rw [bumpWord_keys_of_not_mem hv]
        exact List.mem_append_right _ (hvw ▸ List.mem_singleton_self v)
    · have hw : w ∈ ws := by
        rcases List.mem_cons.mp h with h2 | h2
        · exact absurd h2 hvw
        · exact h2
      exact ih (bumpWord acc v) w hw

theorem bumpFold_firstSeen_order (ws : List (List Char)) :
    ∀ (acc : List (List Char × Nat)) (w1 w2 : List Char), w1 ≠ w2 →
    w1 ∉ acc.map Prod.fst → w2 ∉ acc.map Prod.fst →
    w1 ∈ ws → w2 ∈ ws → ws.indexOf w1 < ws.indexOf w2 →
    ((ws.foldl bumpWord acc).map Prod.fst).indexOf w1 <
      ((ws.foldl bumpWord acc).map Prod.fst).indexOf w2 := by
  induction ws with
  | nil => intro acc w1 w2 _ _ _ h1 _ _; exact absurd h1 (List.not_mem_nil w1)
  | cons w ws ih =>
    intro acc w1 w2 hne h1acc h2acc h1mem h2mem hidx
    simp only [List.foldl_cons]
    by_cases hw1 : w = w1
    · subst hw1
      have hkeys := bumpWord_keys_of_not_mem h1acc
      obtain ⟨new, hnew, hnotin⟩ := bumpFold_keys_growth ws (bumpWord acc w)
      rw [hnew, hkeys]
      have h2mem2 : w2 ∈ ws := by
        rcases List.mem_cons.mp h2mem with h2 | h2
        · exact absurd (h2.symm) hne
        · exact h2
      have h2keys : w2 ∈ acc.map Prod.fst ++ [w] ++ new := by
        rw [← hkeys, ← hnew]
        exact bumpFold_mem_keys ws (bumpWord acc w) w2 h2mem2
      have hidx1 : ((acc.map Prod.fst ++ [w]) ++ new).indexOf w =
          (acc.map Prod.fst).length := by
        have hwin : w ∈ acc.map Prod.fst ++ [w] :=
          List.mem_append_right _ (List.mem_singleton_self w)
        rw [indexOf_append_of_mem _ hwin,
          indexOf_append_of_not_mem _ h1acc, idx_cons_self]
        omega
      have h2notl : w2 ∉ acc.map Prod.fst ++ [w] := by
        intro hc
        rcases List.mem_append.mp hc with h2 | h2
        · exact h2acc h2
        · exact hne (List.mem_singleton.mp h2).symm
      have hidx2 : ((acc.map Prod.fst ++ [w]) ++ new).indexOf w2 ≥
          (acc.map Prod.fst).length + 1 := by
        rw [indexOf_append_of_not_mem _ h2notl, List.length_append]
        simp
      omega
    · by_cases hw2 : w = w2
      · subst hw2
        rw [idx_cons_self, idx_cons_ne _ hw1] at hidx
        omega
      · rw [idx_cons_ne _ hw1, idx_cons_ne _ hw2] at hidx
        have h1mem2 : w1 ∈ ws := by
          rcases List.mem_cons.mp h1mem with h2 | h2
          · exact absurd h2.symm hw1
          · exact h2
        have h2mem2 : w2 ∈ ws := by
          rcases List.mem_cons.mp h2mem with h2 | h2
          · exact absurd h2.symm hw2
          · exact h2
        refine ih (bumpWord acc w) w1 w2 hne ?_ ?_ h1mem2 h2mem2 (by omega)
        · by_cases hw : w ∈ acc.map Prod.fst
          · rw [bumpWord_keys_of_mem hw]
            exact h1acc
          · rw [bumpWord_keys_of_not_mem hw]
            intro hc
            rcases List.mem_append.mp hc with h2 | h2
            · exact h1acc h2
            · exact hw1 (List.mem_singleton.mp h2).symm
        · by_cases hw : w ∈ acc.map Prod.fst
          · rw [bumpWord_keys_of_mem hw]
            exact h2acc
          · rw [bumpWord_keys_of_not_mem hw]
            intro hc
            rcases List.mem_append.mp hc with h2 | h2
            · exact h2acc h2
            · exact hw2 (List.mem_singleton.mp h2).symm

/-- C6: `createVocabulary(corpus, K)` returns a vocabulary of length
`min(K, number of distinct stems in the corpus)`: it truncates the
frequency-ranked stem list to its first K entries, and when the number of
distinct stems is at most K the vocabulary contains exactly the stems that
occur in the corpus (all of them, no error; K = 0 gives the empty
vocabulary as the `min` makes the length 0). -/
theorem createVocabulary_size (mails : List (List (List Char))) (K : Nat) :
    (createVocabulary mails K).length =
      min K (mails.flatten).toFinset.card ∧
    ((mails.flatten).toFinset.card ≤ K →
      ∀ w, w ∈ createVocabulary mails K ↔ w ∈ mails.flatten) := by
  obtain ⟨hnd, hcnt, hmem⟩ := countWords_inv mails
  obtain ⟨hsort, hperm, hfilt⟩ := sortDescByCount_facts (countWords mails)
  have hpermkeys : List.Perm
      ((sortDescByCount (countWords mails)).map Prod.fst)
      ((countWords mails).map Prod.fst) := hperm.map Prod.fst
  have hlen : ((sortDescByCount (countWords mails)).map Prod.fst).length =
      ((countWords mails).map Prod.fst).length := hpermkeys.length_eq
  have hcard : (mails.flatten).toFinset.card =
      ((countWords mails).map Prod.fst).length := by
    have hfs : (mails.flatten).toFinset =
        ((countWords mails).map Prod.fst).toFinset := by
      ext w
      simp only [List.mem_toFinset]
      exact (hmem w).symm
    rw [hfs, List.toFinset_card_of_nodup hnd]
  constructor
  · show (((sortDescByCount (countWords mails)).map Prod.fst).take K).length
        = _
    rw [List.length_take, hlen, hcard]
  · intro hK w
    show w ∈ ((sortDescByCount (countWords mails)).map Prod.fst).take K ↔ _
    rw [List.take_of_length_le (by rw [hlen, ← hcard]; exact hK),
      hpermkeys.mem_iff]
    exact hmem w

/-- C6 witness: on the corpus `[["a", "b", "a"]]` with K = 5 the vocabulary
has length `min 5 2` and contains exactly the words of the corpus. -/
theorem createVocabulary_size_witness :
    (createVocabulary [[['a'], ['b'], ['a']]] 5).length =
      min 5 (([[['a'], ['b'], ['a']]] :
        List (List (List Char))).flatten).toFinset.card ∧
    (['b'] ∈ createVocabulary [[['a'], ['b'], ['a']]] 5 ↔
      ['b'] ∈ ([[['a'], ['b'], ['a']]] :
        List (List (List Char))).flatten) :=
  ⟨(createVocabulary_size [[['a'], ['b'], ['a']]] 5).1,
   (createVocabulary_size [[['a'], ['b'], ['a']]] 5).2 (by decide) ['b']⟩

/-- C10: among vocabulary entries with the same corpus frequency, the word
whose first occurrence appears earlier in the corpus scan gets the lower
vocabulary index: the dict preserved first-seen order and the sort is
stable, so `createVocabulary` is a deterministic function of the corpus
and K. -/
theorem createVocabulary_tiebreak (mails : List (List (List Char)))
    (K : Nat) (w1 w2 : List Char) (hne : w1 ≠ w2)
    (hcount : (mails.flatten).count w1 = (mails.flatten).count w2)
    (hfirst : (mails.flatten).indexOf w1 < (mails.flatten).indexOf w2)
    (h1 : w1 ∈ createVocabulary mails K)
    (h2 : w2 ∈ createVocabulary mails K) :
    (createVocabulary mails K).indexOf w1 <
      (createVocabulary mails K).indexOf w2 := by
  obtain ⟨hnd, hcnt, hmem⟩ := countWords_inv mails
  obtain ⟨hsort, hperm, hfilt⟩ := sortDescByCount_facts (countWords mails)
  have hpermkeys : List.Perm
      ((sortDescByCount (countWords mails)).map Prod.fst)
      ((countWords mails).map Prod.fst) := hperm.map Prod.fst
  have h1s : w1 ∈ (sortDescByCount (countWords mails)).map Prod.fst :=
    List.take_subset K _ h1
  have h2s : w2 ∈ (sortDescByCount (countWords mails)).map Prod.fst :=
    List.take_subset K _ h2
  have h1k : w1 ∈ (countWords mails).map Prod.fst := hpermkeys.mem_iff.mp h1s
  have h2k : w2 ∈ (countWords mails).map Prod.fst := hpermkeys.mem_iff.mp h2s
  have h1f : w1 ∈ mails.flatten := (hmem w1).mp h1k
  have h2f : w2 ∈ mails.flatten := (hmem w2).mp h2k
  obtain ⟨q1, hq1, hq1f⟩ := List.mem_map.mp h1k
  obtain ⟨q2, hq2, hq2f⟩ := List.mem_map.mp h2k
  have hq1c : q1.2 = (mails.flatten).count w1 := by
    rw [hcnt q1 hq1, hq1f]
  have hq2c : q2.2 = (mails.flatten).count w1 := by
    rw [hcnt q2 hq2, hq2f, hcount]
  have hq1e : q1 = (w1, (mails.flatten).count w1) := by
    cases q1
    simp only at hq1f hq1c
    rw [hq1f, hq1c]
  have hq2e : q2 = (w2, (mails.flatten).count w1) := by
    cases q2
    simp only at hq2f hq2c
    rw [hq2f, hq2c]
  rw [hq1e] at hq1
  rw [hq2e] at hq2
  have hnds : ((sortDescByCount (countWords mails)).map Prod.fst).Nodup :=
    hpermkeys.nodup_iff.mpr hnd
  have hpne : ((w1, (mails.flatten).count w1) : List Char × Nat) ≠
      (w2, (mails.flatten).count w1) := by
    intro hc
    exact hne (congrArg Prod.fst hc)
  have h1sp : ((w1, (mails.flatten).count w1) : List Char × Nat) ∈
      sortDescByCount (countWords mails) := hperm.mem_iff.mpr hq1
  have h2sp : ((w2, (mails.flatten).count w1) : List Char × Nat) ∈
      sortDescByCount (countWords mails) := hperm.mem_iff.mpr hq2
  have hkeyW : ((countWords mails).map Prod.fst).indexOf w1 <
      ((countWords mails).map Prod.fst).indexOf w2 := by
    show (((mails.flatten).foldl bumpWord []).map Prod.fst).indexOf w1 < _
    exact bumpFold_firstSeen_order (mails.flatten) [] w1 w2 hne
      (by simp) (by simp) h1f h2f hfirst
  have hpairW : (countWords mails).indexOf (w1, (mails.flatten).count w1) <
      (countWords mails).indexOf (w2, (mails.flatten).count w1) := by
    rw [pair_indexOf_eq_key_indexOf _ _ _ hnd hq1,
      pair_indexOf_eq_key_indexOf _ _ _ hnd hq2]
    exact hkeyW
  have hpairS : (sortDescByCount (countWords mails)).indexOf
        (w1, (mails.flatten).count w1) <
      (sortDescByCount (countWords mails)).indexOf
        (w2, (mails.flatten).count w1) := by
    rw [← filter_indexOf_lt_iff (p := fun q => q.2 ==
        (mails.flatten).count w1) (by simp) (by simp) hpne,
      hfilt ((mails.flatten).count w1)]
    rw [filter_indexOf_lt_iff (by simp) (by simp) hpne]
    exact hpairW
  have hkeyS : ((sortDescByCount (countWords mails)).map Prod.fst).indexOf
        w1 <
      ((sortDescByCount (countWords mails)).map Prod.fst).indexOf w2 := by
    rw [← pair_indexOf_eq_key_indexOf _ _ ((mails.flatten).count w1) hnds
        h1sp,
      ← pair_indexOf_eq_key_indexOf _ _ ((mails.flatten).count w1) hnds
        h2sp]
    exact hpairS
  show (((sortDescByCount (countWords mails)).map Prod.fst).take K).indexOf
      w1 <
    (((sortDescByCount (countWords mails)).map Prod.fst).take K).indexOf w2
  rw [indexOf_take h1, indexOf_take h2]
  exact hkeyS

/-- C10 witness: in the corpus `[["a", "b", "a", "b"]]` the words "a" and
"b" both occur twice; "a" is seen first and indeed precedes "b" in the
vocabulary of size 2. -/
theorem createVocabulary_tiebreak_witness :
    (['a'] : List Char) ≠ ['b'] ∧
    (([[['a'], ['b'], ['a'], ['b']]] :
        List (List (List Char))).flatten).count ['a'] =
      (([[['a'], ['b'], ['a'], ['b']]] :
        List (List (List Char))).flatten).count ['b'] ∧
    (([[['a'], ['b'], ['a'], ['b']]] :
        List (List (List Char))).flatten).indexOf ['a'] <
      (([[['a'], ['b'], ['a'], ['b']]] :
        List (List (List Char))).flatten).indexOf ['b'] ∧
    ['a'] ∈ createVocabulary [[['a'], ['b'], ['a'], ['b']]] 2 ∧
    ['b'] ∈ createVocabulary [[['a'], ['b'], ['a'], ['b']]] 2 ∧
    (createVocabulary [[['a'], ['b'], ['a'], ['b']]] 2).indexOf ['a'] <
      (createVocabulary [[['a'], ['b'], ['a'], ['b']]] 2).indexOf ['b'] :=
  ⟨by decide, by decide, by decide, by decide, by decide,
   createVocabulary_tiebreak [[['a'], ['b'], ['a'], ['b']]] 2 ['a'] ['b']
     (by decide) (by decide) (by decide) (by decide) (by decide)⟩

theorem msgCouldNotRead_head (f : List Char) :
    (msgCouldNotRead f).head? = some 'C' := rfl

/-- C9: `predictSamples` on an empty filename list reports
"Nothing to predict." and nothing else, for every file system, stemmer,
vocabulary and classifier state; in particular the result does not depend
on any of them, so no read, vectorization or classification influences
it. -/
theorem predictSamples_empty (stem stem2 : List Char → List Char)
    (readFile readFile2 : List Char → Option (List Char))
    (vocabulary vocabulary2 : Option (List (List Char)))
    (clf clf2 : Option (List Nat → Bool)) :
    predictSamples stem readFile vocabulary clf [] = [msgNothing] ∧
    predictSamples stem readFile vocabulary clf [] =
      predictSamples stem2 readFile2 vocabulary2 clf2 [] :=
  ⟨rfl, rfl⟩

/-- C8: the three failure conditions of `predictSamples` are reported by
pairwise distinct messages, each produced exactly by its condition: an
unreadable file f yields "Could not read f." in the output, a missing
vocabulary yields "No vocabulary has been created.", and a missing model
(with a vocabulary present) yields "No model has been trained." and not
the vocabulary message. -/
theorem predictSamples_failures (stem : List Char → List Char)
    (readFile : List Char → Option (List Char))
    (clf : Option (List Nat → Bool)) (filenames : List (List Char))
    (f : List Char) (v : List (List Char)) (hmem : f ∈ filenames)
    (hread : readFile f = none) :
    (msgCouldNotRead f ≠ msgNoVocab ∧ msgCouldNotRead f ≠ msgNoModel ∧
      msgNoVocab ≠ msgNoModel) ∧
    msgCouldNotRead f ∈ predictSamples stem readFile none clf filenames ∧
    msgNoVocab ∈ predictSamples stem readFile none clf filenames ∧
    msgNoModel ∈ predictSamples stem readFile (some v) none filenames ∧
    msgNoVocab ∉ predictSamples stem readFile (some v) none filenames := by
  have hdist1 : msgCouldNotRead f ≠ msgNoVocab := by
    intro h
    have h2 := congrArg List.head? h
    rw [msgCouldNotRead_head] at h2
    exact absurd h2 (by decide)
  have hdist2 : msgCouldNotRead f ≠ msgNoModel := by
    intro h
    have h2 := congrArg List.head? h
    rw [msgCouldNotRead_head] at h2
    exact absurd h2 (by decide)
  obtain ⟨g, gs, rfl⟩ : ∃ g gs, filenames = g :: gs := by
    cases filenames with
    | nil => exact absurd hmem (List.not_mem_nil f)
    | cons g gs => exact ⟨g, gs, rfl⟩
  have hempty : ((g :: gs).isEmpty = true) = False := by simp
  have hfilt : f ∈ (g :: gs).filter (fun x => (readFile x).isNone) :=
    List.mem_filter.mpr ⟨hmem, by rw [hread]; rfl⟩
  have hrerr : msgCouldNotRead f ∈
      ((g :: gs).filter (fun x => (readFile x).isNone)).map
        msgCouldNotRead := List.mem_map_of_mem msgCouldNotRead hfilt
  refine ⟨⟨hdist1, hdist2, by decide⟩, ?_, ?_, ?_, ?_⟩
  · show msgCouldNotRead f ∈
      if (g :: gs).isEmpty then [msgNothing]
      else ((g :: gs).filter (fun x => (readFile x).isNone)).map
        msgCouldNotRead ++ [msgNoVocab]
    rw [if_neg (by simp)]
    exact List.mem_append_left _ hrerr
  · show msgNoVocab ∈
      if (g :: gs).isEmpty then [msgNothing]
      else ((g :: gs).filter (fun x => (readFile x).isNone)).map
        msgCouldNotRead ++ [msgNoVocab]
    rw [if_neg (by simp)]
    exact List.mem_append_right _ (List.mem_singleton_self _)
  · show msgNoModel ∈
      if (g :: gs).isEmpty then [msgNothing]
      else ((g :: gs).filter (fun x => (readFile x).isNone)).map
        msgCouldNotRead ++ [msgNoModel]
    rw [if_neg (by simp)]
    exact List.mem_append_right _ (List.mem_singleton_self _)
  · show msgNoVocab ∉
      if (g :: gs).isEmpty then [msgNothing]
      else ((g :: gs).filter (fun x => (readFile x).isNone)).map
        msgCouldNotRead ++ [msgNoModel]
    rw [if_neg (by simp)]
    intro hc
    rcases List.mem_append.mp hc with h2 | h2
    · obtain ⟨x, _, hx⟩ := List.mem_map.mp h2
      have h3 := congrArg List.head? hx
      rw [msgCouldNotRead_head] at h3
      exact absurd h3 (by decide)
    · exact absurd (List.mem_singleton.mp h2) (by decide)

/-- C8 witness: with the one-file list ["a"] and a file system on which
"a" is unreadable, the three failure messages are distinct and each
appears under its condition. -/
theorem predictSamples_failures_witness :
    (['a'] : List Char) ∈ [(['a'] : List Char)] ∧
    (fun (_ : List Char) => (none : Option (List Char))) ['a'] = none ∧
    msgNoVocab ∈ predictSamples (fun w => w) (fun _ => none) none none
      [['a']] ∧
    msgNoModel ∈ predictSamples (fun w => w) (fun _ => none) (some [])
      none [['a']] :=
  ⟨List.mem_singleton_self _, rfl,
   (predictSamples_failures (fun w => w) (fun _ => none) none [['a']]
     ['a'] [] (List.mem_singleton_self _) rfl).2.2.1,
   (predictSamples_failures (fun w => w) (fun _ => none) none [['a']]
     ['a'] [] (List.mem_singleton_self _) rfl).2.2.2.1⟩

/-- C1: index misalignment after a skipped file.  With filenames
["a", "b"] where "a" is unreadable and "b" reads as "x", a vocabulary
["x"] and a classifier that labels every row spam, the output reports
"a is spam." — the prediction computed from b's text is attributed to
filename a, and no line reports b at all.  This refutes the claimed
alignment between each filename and its own message. -/
theorem predictSamples_misalignment :
    predictSamples (fun w => w)
        (fun f => if f == ['b'] then some ['x'] else none)
        (some [['x']]) (some (fun row => row.any (fun k => k == 1)))
        [['a'], ['b']] =
      [msgCouldNotRead ['a'], msgIsSpam ['a']] ∧
    msgIsSpam ['b'] ∉ predictSamples (fun w => w)
        (fun f => if f == ['b'] then some ['x'] else none)
        (some [['x']]) (some (fun row => row.any (fun k => k == 1)))
        [['a'], ['b']] ∧
    msgIsNotSpam ['b'] ∉ predictSamples (fun w => w)
        (fun f => if f == ['b'] then some ['x'] else none)
        (some [['x']]) (some (fun row => row.any (fun k => k == 1)))
        [['a'], ['b']] := by
  refine ⟨by decide, by decide, by decide⟩

end SpamPipeline
